import Mathlib

set_option maxRecDepth 16384

/-!
# Verification of the jbdecoder Decode Engine

Shallow embedding of `internal/decoder/decoder.go` and the parts of the Go
standard library its semantics depends on (`encoding/base64` standard
decoding, `unicode/utf8` validity, `strings.TrimSpace`, and `encoding/json`
unmarshalling into a dynamic value, including its maximum nesting depth and
its rejection of number literals that overflow float64).

Machine strings are modelled as Lean `String` (sequences of Unicode scalar
values); Go's byte-level view of a string is recovered through UTF-8
encoding (`strBytes`).  Go's `float64` JSON numbers are modelled by their
source literal (the decoder never computes with the numeric value; it only
checks that `strconv.ParseFloat` would not overflow, which is an exact
decimal comparison modelled in `numOverflows`).

The mutual recursion of `DecodeBase64Fields`/`DecodeBase64String` is
embedded as a single fuel-indexed function `decodeFieldsF`; the top-level
functions instantiate the fuel with the termination measure `jsize`, and
fuel sufficiency (termination of the Go recursion) is proved below.
-/

/-- The dynamic JSON value tree produced by `json.Unmarshal` into `any`:
`map[string]any` (modelled as an association list with the keys in some
order), `[]any`, `string`, `float64` (modelled by its literal), `bool`,
`nil`. -/
inductive Json where
  | obj (fields : List (String × Json))
  | arr (elems : List Json)
  | str (s : String)
  | num (lit : String)
  | bool (b : Bool)
  | null

/-! ## UTF-8 (Go `unicode/utf8`) -/

/-- UTF-8 encoding of one Unicode scalar value, as byte values. -/
def utf8Encode (c : Char) : List Nat :=
  if c.toNat < 0x80 then [c.toNat]
  else if c.toNat < 0x800 then [0xC0 + c.toNat / 64, 0x80 + c.toNat % 64]
  else if c.toNat < 0x10000 then
    [0xE0 + c.toNat / 4096, 0x80 + c.toNat / 64 % 64, 0x80 + c.toNat % 64]
  else
    [0xF0 + c.toNat / 262144, 0x80 + c.toNat / 4096 % 64, 0x80 + c.toNat / 64 % 64,
      0x80 + c.toNat % 64]

/-- The bytes of a string, as Go sees it (`[]byte(s)`). -/
def strBytes (s : String) : List Nat := s.data.flatMap utf8Encode

/-- Go `len(s)`: the byte length of a string. -/
def byteLen (s : String) : Nat := (strBytes s).length

/-- Byte length of a list of characters. -/
def byteLenChars (cs : List Char) : Nat := (cs.flatMap utf8Encode).length

/-- Lower bound of the accepted range for the second byte of a multi-byte
sequence, per first byte (Go `utf8.acceptRanges`). -/
def u8lo (b : Nat) : Nat := if b = 0xE0 then 0xA0 else if b = 0xF0 then 0x90 else 0x80

/-- Upper bound of the accepted range for the second byte of a multi-byte
sequence, per first byte (Go `utf8.acceptRanges`). -/
def u8hi (b : Nat) : Nat := if b = 0xED then 0x9F else if b = 0xF4 then 0x8F else 0xBF

/-- Decode a byte list as UTF-8, per Go's `unicode/utf8` rules (reject
overlong forms, surrogates, and values above U+10FFFF).  `utf8.Valid`
holds exactly when this returns `some`, and `string(d)` is then the
returned character list. -/
def utf8Decode : List Nat → Option (List Char)
  | [] => some []
  | b :: rest =>
    if b < 0x80 then (utf8Decode rest).map (fun cs => Char.ofNat b :: cs)
    else
      match rest with
      | [] => none
      | b1 :: rest1 =>
        if 0xC2 ≤ b ∧ b ≤ 0xDF then
          if u8lo b ≤ b1 ∧ b1 ≤ u8hi b then
            (utf8Decode rest1).map (fun cs => Char.ofNat ((b - 0xC0) * 64 + (b1 - 0x80)) :: cs)
          else none
        else
          match rest1 with
          | [] => none
          | b2 :: rest2 =>
            if 0xE0 ≤ b ∧ b ≤ 0xEF then
              if (u8lo b ≤ b1 ∧ b1 ≤ u8hi b) ∧ (0x80 ≤ b2 ∧ b2 ≤ 0xBF) then
                (utf8Decode rest2).map (fun cs =>
                  Char.ofNat ((b - 0xE0) * 4096 + (b1 - 0x80) * 64 + (b2 - 0x80)) :: cs)
              else none
            else
              match rest2 with
              | [] => none
              | b3 :: rest3 =>
                if 0xF0 ≤ b ∧ b ≤ 0xF4 then
                  if (u8lo b ≤ b1 ∧ b1 ≤ u8hi b) ∧ (0x80 ≤ b2 ∧ b2 ≤ 0xBF) ∧
                      (0x80 ≤ b3 ∧ b3 ≤ 0xBF) then
                    (utf8Decode rest3).map (fun cs =>
                      Char.ofNat ((b - 0xF0) * 262144 + (b1 - 0x80) * 4096 +
                        (b2 - 0x80) * 64 + (b3 - 0x80)) :: cs)
                  else none
                else none

/-! ## Base64 (Go `encoding/base64`, `StdEncoding`) -/

/-- `StdEncoding.decodeMap`: 6-bit value of a byte, `none` if the byte is
not in the standard alphabet. -/
def b64DecodeMap (b : Nat) : Option Nat :=
  if 65 ≤ b ∧ b ≤ 90 then some (b - 65)
  else if 97 ≤ b ∧ b ≤ 122 then some (b - 97 + 26)
  else if 48 ≤ b ∧ b ≤ 57 then some (b - 48 + 52)
  else if b = 43 then some 62
  else if b = 47 then some 63
  else none

/-- Bytes produced from the 6-bit symbols of one quantum (2, 3 or 4
symbols; non-strict mode: leftover bits are dropped, as in Go's default
`StdEncoding`). -/
def b64Emit (dbuf : List Nat) : List Nat :=
  match dbuf with
  | [b0, b1] => [b0 * 4 + b1 / 16]
  | [b0, b1, b2] => [b0 * 4 + b1 / 16, b1 % 16 * 16 + b2 / 4]
  | [b0, b1, b2, b3] => [b0 * 4 + b1 / 16, b1 % 16 * 16 + b2 / 4, b2 % 4 * 64 + b3]
  | _ => []

/-- Drop carriage returns and newlines (which Go's base64 decoder skips). -/
def dropCRLF : List Nat → List Nat := List.dropWhile (fun b => b == 10 || b == 13)

/-- One quantum of Go's `base64.decodeQuantum` for `StdEncoding`: collect
up to four 6-bit symbols, skipping `\r`/`\n`; handle `=` padding, after
which (modulo `\r`/`\n`) the input must end; `none` on corrupt input
(including a quantum cut short by end of input, since `StdEncoding`
requires padding).  Returns emitted bytes and remaining input. -/
def dqGo (dbuf : List Nat) (src : List Nat) : Option (List Nat × List Nat) :=
  if dbuf.length = 4 then some (b64Emit dbuf, src)
  else
    match src with
    | [] => if dbuf.isEmpty then some ([], []) else none
    | b :: rest =>
      match b64DecodeMap b with
      | some v => dqGo (dbuf ++ [v]) rest
      | none =>
        if b = 10 ∨ b = 13 then dqGo dbuf rest
        else if b = 61 then
          match dbuf.length with
          | 2 =>
            match dropCRLF rest with
            | 61 :: rest2 => if (dropCRLF rest2).isEmpty then some (b64Emit dbuf, []) else none
            | _ => none
          | 3 => if (dropCRLF rest).isEmpty then some (b64Emit dbuf, []) else none
          | _ => none
        else none

/-- The quantum loop of Go's `base64.Decode`; the fuel is an upper bound
on the number of quanta (each consumes at least one input byte). -/
def goB64DecodeLoop : Nat → List Nat → Option (List Nat)
  | _, [] => some []
  | 0, _ :: _ => none
  | fuel + 1, b :: rest =>
    match dqGo [] (b :: rest) with
    | none => none
    | some (out, rest1) => (goB64DecodeLoop fuel rest1).map (fun tl => out ++ tl)

/-- Go `base64.StdEncoding.DecodeString` on a byte list: `none` exactly
when it returns an error. -/
def goB64Decode (bs : List Nat) : Option (List Nat) := goB64DecodeLoop bs.length bs

/-- `IsBase64` from `internal/decoder/decoder.go`: length is a multiple of
4 (`base64BlockSize`) and `base64.StdEncoding.DecodeString` succeeds. -/
def isBase64 (s : String) : Bool :=
  byteLen s % 4 == 0 && (goB64Decode (strBytes s)).isSome

/-- `StdEncoding` alphabet: 6-bit value to byte. -/
def b64EncodeMap (v : Nat) : Nat :=
  if v < 26 then 65 + v
  else if v < 52 then 97 + (v - 26)
  else if v < 62 then 48 + (v - 52)
  else if v = 62 then 43 else 47

/-- Go `base64.StdEncoding.EncodeToString` on a byte list. -/
def b64EncodeBytes : List Nat → List Nat
  | [] => []
  | [b0] => [b64EncodeMap (b0 / 4), b64EncodeMap (b0 % 4 * 16), 61, 61]
  | [b0, b1] => [b64EncodeMap (b0 / 4), b64EncodeMap (b0 % 4 * 16 + b1 / 16),
      b64EncodeMap (b1 % 16 * 4), 61]
  | b0 :: b1 :: b2 :: rest =>
    b64EncodeMap (b0 / 4) :: b64EncodeMap (b0 % 4 * 16 + b1 / 16) ::
      b64EncodeMap (b1 % 16 * 4 + b2 / 64) :: b64EncodeMap (b2 % 64) :: b64EncodeBytes rest

/-- Base64-encode a string's bytes, as a string (`Base64Encode` in the
spec's round-trip properties). -/
def encStr (s : String) : String :=
  String.mk ((b64EncodeBytes (strBytes s)).map Char.ofNat)

/-! ## `strings.TrimSpace` (Go `unicode.IsSpace`) -/

/-- Go `unicode.IsSpace`: the White_Space property. -/
def goIsSpace (c : Char) : Bool :=
  c.toNat == 9 || c.toNat == 10 || c.toNat == 11 || c.toNat == 12 || c.toNat == 13 ||
    c.toNat == 32 || c.toNat == 0x85 || c.toNat == 0xA0 || c.toNat == 0x1680 ||
    (0x2000 ≤ c.toNat && c.toNat ≤ 0x200A) || c.toNat == 0x2028 || c.toNat == 0x2029 ||
    c.toNat == 0x202F || c.toNat == 0x205F || c.toNat == 0x3000

/-- Go `strings.TrimSpace` on a character list. -/
def trimSpace (cs : List Char) : List Char :=
  ((cs.dropWhile goIsSpace).reverse.dropWhile goIsSpace).reverse

/-! ## JSON parsing (Go `encoding/json`, `Unmarshal` into `any`) -/

/-- JSON whitespace accepted by Go's scanner. -/
def jsonWS (c : Char) : Bool := c == ' ' || c == '\t' || c == '\n' || c == '\r'

/-- Skip JSON whitespace. -/
def skipWS : List Char → List Char := List.dropWhile jsonWS

/-- Hexadecimal digit value (for `\uXXXX` escapes). -/
def hexVal (c : Char) : Option Nat :=
  if '0' ≤ c ∧ c ≤ '9' then some (c.toNat - 48)
  else if 'a' ≤ c ∧ c ≤ 'f' then some (c.toNat - 97 + 10)
  else if 'A' ≤ c ∧ c ≤ 'F' then some (c.toNat - 65 + 10)
  else none

/-- Go `encoding/json` `getu4`: read a `\\uXXXX` escape prefix, returning
the 16-bit value and the rest, or `none` if the prefix is not of that
form. -/
def getu4 : List Char → Option (Nat × List Char)
  | '\\' :: 'u' :: h1 :: h2 :: h3 :: h4 :: rest =>
    match hexVal h1, hexVal h2, hexVal h3, hexVal h4 with
    | some a1, some a2, some a3, some a4 =>
      some (((a1 * 16 + a2) * 16 + a3) * 16 + a4, rest)
    | _, _, _, _ => none
  | _ => none

/-- One string item of Go's scanner/`unquoteBytes`: decode a single
character (raw or escape) at the head of a string body that does not
start with the closing quote.  Control bytes below 0x20 and unknown
escapes are rejected; lone or mismatched UTF-16 surrogate escapes become
U+FFFD.  Non-recursive; the loop is `parseStringBodyF`. -/
def strStep : List Char → Option (Char × List Char)
  | [] => none
  | c :: rest =>
    if c = '\\' then
      match rest with
      | [] => none
      | e :: rest1 =>
        if e = '"' then some ('"', rest1)
        else if e = '\\' then some ('\\', rest1)
        else if e = '/' then some ('/', rest1)
        else if e = 'b' then some (Char.ofNat 8, rest1)
        else if e = 'f' then some (Char.ofNat 12, rest1)
        else if e = 'n' then some ('\n', rest1)
        else if e = 'r' then some ('\r', rest1)
        else if e = 't' then some ('\t', rest1)
        else if e = 'u' then
          match getu4 ('\\' :: 'u' :: rest1) with
          | none => none
          | some (n, rest2) =>
            if 0xD800 ≤ n ∧ n ≤ 0xDBFF then
              match getu4 rest2 with
              | some (m, rest3) =>
                if 0xDC00 ≤ m ∧ m ≤ 0xDFFF then
                  some (Char.ofNat (0x10000 + (n - 0xD800) * 0x400 + (m - 0xDC00)), rest3)
                else some (Char.ofNat 0xFFFD, rest2)
              | none => some (Char.ofNat 0xFFFD, rest2)
            else if 0xDC00 ≤ n ∧ n ≤ 0xDFFF then some (Char.ofNat 0xFFFD, rest2)
            else some (Char.ofNat n, rest2)
        else none
    else if c.toNat < 0x20 then none
    else some (c, rest)

/-- Fuel-indexed loop of `parseStringBody`: read items until the closing
quote; each step consumes at least one input character, so fuel
`length + 1` always suffices. -/
def parseStringBodyF : Nat → List Char → Option (List Char × List Char)
  | 0, _ => none
  | fuel + 1, cs =>
    match cs with
    | [] => none
    | c :: rest =>
      if c = '"' then some ([], rest)
      else
        match strStep (c :: rest) with
        | none => none
        | some (ch, rest1) => (parseStringBodyF fuel rest1).map (fun p => (ch :: p.1, p.2))

/-- Parse the body of a JSON string after the opening quote, per Go's
scanner and `unquoteBytes`.  Returns the decoded characters and the input
after the closing quote. -/
def parseStringBody (cs : List Char) : Option (List Char × List Char) :=
  parseStringBodyF (cs.length + 1) cs

/-- ASCII decimal digit. -/
def isDigit (c : Char) : Bool := '0' ≤ c && c ≤ '9'

/-- Longest prefix of decimal digits, and the rest. -/
def scanDigits : List Char → List Char × List Char
  | [] => ([], [])
  | c :: rest =>
    if isDigit c then
      let p := scanDigits rest
      (c :: p.1, p.2)
    else ([], c :: rest)

/-- Fraction part of a JSON number (empty, or `.` followed by at least one
digit). -/
def parseFrac : List Char → Option (List Char × List Char)
  | '.' :: r =>
    if (scanDigits r).1.isEmpty then none
    else some ('.' :: (scanDigits r).1, (scanDigits r).2)
  | cs => some ([], cs)

/-- Exponent part of a JSON number (empty, or `e`/`E`, optional sign, at
least one digit). -/
def parseExp : List Char → Option (List Char × List Char)
  | [] => some ([], [])
  | c :: r =>
    if c = 'e' ∨ c = 'E' then
      match r with
      | [] => none
      | s :: r1 =>
        if s = '+' ∨ s = '-' then
          if (scanDigits r1).1.isEmpty then none
          else some (c :: s :: (scanDigits r1).1, (scanDigits r1).2)
        else
          if (scanDigits r).1.isEmpty then none
          else some (c :: (scanDigits r).1, (scanDigits r).2)
    else some ([], c :: r)

/-- Integer part of a JSON number: `0`, or a nonzero digit followed by
digits (leading zeros rejected, as in Go's scanner). -/
def parseNumInt : List Char → Option (List Char × List Char)
  | [] => none
  | c :: r =>
    if c = '0' then some (['0'], r)
    else if isDigit c then some (c :: (scanDigits r).1, (scanDigits r).2)
    else none

/-- Fraction and exponent parts after the integer part. -/
def parseNumAfter (ip : List Char) (cs : List Char) : Option (List Char × List Char) :=
  match parseFrac cs with
  | none => none
  | some (f, r1) =>
    match parseExp r1 with
    | none => none
    | some (e, r2) => some (ip ++ f ++ e, r2)

/-- Scan a JSON number literal per Go's scanner grammar
(`-?(0|[1-9][0-9]*)(.[0-9]+)?([eE][+-]?[0-9]+)?`); returns the literal
and the rest. -/
def parseNumber (cs : List Char) : Option (List Char × List Char) :=
  match cs with
  | '-' :: r =>
    match parseNumInt r with
    | none => none
    | some (ip, r1) =>
      match parseNumAfter ip r1 with
      | none => none
      | some (lit, r2) => some ('-' :: lit, r2)
  | _ =>
    match parseNumInt cs with
    | none => none
    | some (ip, r1) => parseNumAfter ip r1

/-- Numeric value of a digit list. -/
def digitsToNat : List Char → Nat :=
  List.foldl (fun acc c => acc * 10 + (c.toNat - 48)) 0

/-- Decimal mantissa and exponent of a scanned number literal: the exact
value of the literal is `± mantissa * 10 ^ exponent`. -/
def numLitMantExp (lit : List Char) : Nat × Int :=
  let cs := match lit with
    | '-' :: r => r
    | _ => lit
  let ip := scanDigits cs
  let fp : List Char × List Char := match ip.2 with
    | '.' :: rr => scanDigits rr
    | _ => ([], ip.2)
  let ev : Int := match fp.2 with
    | _ :: '+' :: rr2 => (digitsToNat (scanDigits rr2).1 : Nat)
    | _ :: '-' :: rr2 => -(digitsToNat (scanDigits rr2).1 : Int)
    | _ :: rr => (digitsToNat (scanDigits rr).1 : Nat)
    | [] => 0
  (digitsToNat (ip.1 ++ fp.1), ev - fp.1.length)

/-- Smallest magnitude at which IEEE-754 round-to-nearest-even carries a
decimal literal to infinity: `2^1024 - 2^970`.  `strconv.ParseFloat`
returns `ErrRange` (so `json.Unmarshal` into `any` fails) exactly when the
literal's magnitude reaches this bound. -/
def f64Bound : Nat := 2 ^ 1024 - 2 ^ 970

/-- Whether a scanned number literal overflows `float64` (Go
`strconv.ParseFloat` range error; underflow to zero is not an error). -/
def numOverflows (lit : List Char) : Bool :=
  let p := numLitMantExp lit
  p.1 ≠ 0 && (if 0 ≤ p.2 then f64Bound ≤ p.1 * 10 ^ p.2.toNat
    else f64Bound * 10 ^ (-p.2).toNat ≤ p.1)

/-- Go map assignment `m[k] = v` on an association list: replace the value
at an existing key, else append. -/
def insertKey : List (String × Json) → String → Json → List (String × Json)
  | [], k, v => [(k, v)]
  | (k1, v1) :: fs, k, v =>
    if k1 = k then (k, v) :: fs else (k1, v1) :: insertKey fs k v

/-- Go's scanner refuses more than 10000 nested objects/arrays
(`maxNestingDepth` in `encoding/json/scanner.go`). -/
def maxNestingDepth : Nat := 10000

/-- Work items of the JSON value decoder: a value to parse, or the member
or element loop of a partially parsed object or array. -/
inductive PJob where
  | val (depth : Nat) (cs : List Char)
  | members (depth : Nat) (cs : List Char) (acc : List (String × Json))
  | elems (depth : Nat) (cs : List Char) (acc : List Json)

/-- The JSON value grammar of Go's `encoding/json` (scanner plus decode
into `any`), as a fuel-indexed recursion: parse one value (or run one
object/array member loop) and return it with the remaining input.  The
fuel only bounds the recursion depth of the embedding; `parseFuel` below
always suffices. -/
def parseF : Nat → PJob → Option (Json × List Char)
  | 0, _ => none
  | fuel + 1, .val depth cs =>
    match skipWS cs with
    | [] => none
    | c :: rest =>
      if c = '{' then
        if maxNestingDepth < depth + 1 then none
        else
          match skipWS rest with
          | '}' :: r2 => some (.obj [], r2)
          | r2 => parseF fuel (.members (depth + 1) r2 [])
      else if c = '[' then
        if maxNestingDepth < depth + 1 then none
        else
          match skipWS rest with
          | ']' :: r2 => some (.arr [], r2)
          | r2 => parseF fuel (.elems (depth + 1) r2 [])
      else if c = '"' then
        match parseStringBody rest with
        | some (content, r2) => some (.str (String.mk content), r2)
        | none => none
      else if c = 't' then
        match rest with
        | 'r' :: 'u' :: 'e' :: r2 => some (.bool true, r2)
        | _ => none
      else if c = 'f' then
        match rest with
        | 'a' :: 'l' :: 's' :: 'e' :: r2 => some (.bool false, r2)
        | _ => none
      else if c = 'n' then
        match rest with
        | 'u' :: 'l' :: 'l' :: r2 => some (.null, r2)
        | _ => none
      else if c = '-' ∨ isDigit c then
        match parseNumber (c :: rest) with
        | some (lit, r2) => if numOverflows lit then none else some (.num (String.mk lit), r2)
        | none => none
      else none
  | fuel + 1, .members depth cs acc =>
    match skipWS cs with
    | '"' :: r1 =>
      match parseStringBody r1 with
      | none => none
      | some (key, r2) =>
        match skipWS r2 with
        | ':' :: r3 =>
          match parseF fuel (.val depth r3) with
          | none => none
          | some (v, r4) =>
            match skipWS r4 with
            | ',' :: r5 => parseF fuel (.members depth r5 (insertKey acc (String.mk key) v))
            | '}' :: r5 => some (.obj (insertKey acc (String.mk key) v), r5)
            | _ => none
        | _ => none
    | _ => none
  | fuel + 1, .elems depth cs acc =>
    match parseF fuel (.val depth cs) with
    | none => none
    | some (v, r1) =>
      match skipWS r1 with
      | ',' :: r2 => parseF fuel (.elems depth r2 (acc ++ [v]))
      | ']' :: r2 => some (.arr (acc ++ [v]), r2)
      | _ => none

/-- Fuel that always suffices for `parseF` (each unit of fuel either
consumes input or returns). -/
def parseFuel (cs : List Char) : Nat := 2 * cs.length + 4

/-- Go `json.Unmarshal(data, &v)` with `v : any`: exactly one JSON value,
surrounded only by JSON whitespace; `none` when Go reports an error.
`IsValidJSON` from the source is `(goUnmarshal cs).isSome`. -/
def goUnmarshal (cs : List Char) : Option Json :=
  match parseF (parseFuel cs) (.val 0 cs) with
  | some (v, rest) => if (skipWS rest).isEmpty then some v else none
  | none => none

/-! ## The Decode Engine (`internal/decoder/decoder.go`) -/

mutual
/-- Termination measure of the decode recursion: strings weigh their byte
length plus one, containers one plus the weight of their children. -/
def jsize : Json → Nat
  | .obj fs => 1 + jsizeFields fs
  | .arr es => 1 + jsizeList es
  | .str s => byteLen s + 1
  | .num l => l.length
  | .bool _ => 1
  | .null => 1

/-- Total `jsize` of the values of an association list. -/
def jsizeFields : List (String × Json) → Nat
  | [] => 0
  | kv :: fs => jsize kv.2 + jsizeFields fs

/-- Total `jsize` of a list of values. -/
def jsizeList : List Json → Nat
  | [] => 0
  | v :: es => jsize v + jsizeList es
end

/-- Input stream of a parser work item. -/
def jobCs : PJob → List Char
  | .val _ cs => cs
  | .members _ cs _ => cs
  | .elems _ cs _ => cs

/-- Size already accumulated by a parser work item: a member or element
loop has produced part of its container. -/
def jobExtra : PJob → Nat
  | .val _ _ => 0
  | .members _ _ acc => 1 + jsizeFields acc
  | .elems _ _ acc => 1 + jsizeList acc

/-- The mutually recursive pair `DecodeBase64Fields`/`DecodeBase64String`
of `internal/decoder/decoder.go`, as one fuel-indexed function.  The
`.str` branch is `DecodeBase64String` verbatim: if `IsBase64` fails,
return the string; decode, and on decode error return the string; if the
bytes are not valid UTF-8, return the string; trim space; if the text is
valid JSON, recursively decode the parsed value; else return the trimmed
text.  The `.obj`/`.arr` branches are `DecodeBase64InMap` and
`DecodeBase64InSlice`; other values are returned as-is.  Fuel `jsize x`
always suffices (proved below); out of fuel, the input is returned
unchanged. -/
def decodeFieldsF : Nat → Json → Json
  | 0, x => x
  | fuel + 1, x =>
    match x with
    | .obj fs => .obj (fs.map (fun kv => (kv.1, decodeFieldsF fuel kv.2)))
    | .arr es => .arr (es.map (fun e => decodeFieldsF fuel e))
    | .str s =>
      if !isBase64 s then .str s
      else
        match goB64Decode (strBytes s) with
        | none => .str s
        | some d =>
          match utf8Decode d with
          | none => .str s
          | some text =>
            match goUnmarshal (trimSpace text) with
            | some v => decodeFieldsF fuel v
            | none => .str (String.mk (trimSpace text))
    | v => v

/-- `DecodeBase64Fields`: recursively traverse a JSON value and decode
Base64 strings. -/
def decodeBase64Fields (x : Json) : Json := decodeFieldsF (jsize x) x

/-- `DecodeBase64String`: attempt to decode a Base64 string and parse it
as JSON if valid. -/
def decodeBase64String (s : String) : Json := decodeFieldsF (jsize (.str s)) (.str s)

/-- `DecodeBase64InMap`: process all values in a map. -/
def decodeBase64InMap (fs : List (String × Json)) : List (String × Json) :=
  fs.map (fun kv => (kv.1, decodeBase64Fields kv.2))

/-- `DecodeBase64InSlice`: process all values in a slice. -/
def decodeBase64InSlice (es : List Json) : List Json := es.map decodeBase64Fields

/-! ## JSON serialization (Go `encoding/json`, `Marshal`) -/

/-- Lowercase hexadecimal digit. -/
def hexDigit (n : Nat) : Char := if n < 10 then Char.ofNat (48 + n) else Char.ofNat (87 + n)

/-- Go `json.Marshal` string escaping (default HTML escaping): `"`, `\`,
control characters, `<`, `>`, `&`, U+2028 and U+2029 are escaped, other
characters are written as-is. -/
def escapeChar (c : Char) : List Char :=
  if c = '"' then ['\\', '"']
  else if c = '\\' then ['\\', '\\']
  else if c = '\n' then ['\\', 'n']
  else if c = '\r' then ['\\', 'r']
  else if c = '\t' then ['\\', 't']
  else if c.toNat < 0x20 ∨ c = '<' ∨ c = '>' ∨ c = '&' then
    ['\\', 'u', '0', '0', hexDigit (c.toNat / 16), hexDigit (c.toNat % 16)]
  else if c.toNat = 0x2028 ∨ c.toNat = 0x2029 then
    ['\\', 'u', '2', '0', '2', hexDigit (c.toNat % 16)]
  else [c]

/-- The serialized form of a JSON string. -/
def marshalString (s : String) : List Char := '"' :: s.data.flatMap escapeChar ++ ['"']

mutual
/-- Go `json.Marshal` of a dynamic value, in compact form (`JSONStringify`
in the spec's round-trip properties).  Go writes object members in
ascending (bytewise) key order; this embedding writes them in
representation order and is only applied to values whose representation
is already key-sorted (see `wellFormed`), for which the two coincide.
Numbers are written as their literal. -/
def marshal : Json → List Char
  | .obj fs => '{' :: marshalFields fs ++ ['}']
  | .arr es => '[' :: marshalElems es ++ [']']
  | .str s => marshalString s
  | .num l => l.data
  | .bool b => (if b then "true" else "false").data
  | .null => "null".data

/-- Serialized object members, comma-separated. -/
def marshalFields : List (String × Json) → List Char
  | [] => []
  | [kv] => marshalString kv.1 ++ ':' :: marshal kv.2
  | kv :: fs => marshalString kv.1 ++ ':' :: marshal kv.2 ++ ',' :: marshalFields fs

/-- Serialized array elements, comma-separated. -/
def marshalElems : List Json → List Char
  | [] => []
  | [v] => marshal v
  | v :: es => marshal v ++ ',' :: marshalElems es
end

/-- `JSONStringify`. -/
def jsonStringify (x : Json) : String := String.mk (marshal x)

/-- Go bytewise string comparison `a < b`. -/
def bytesLt : List Nat → List Nat → Bool
  | [], [] => false
  | [], _ :: _ => true
  | _ :: _, [] => false
  | a :: as, b :: bs => if a < b then true else if b < a then false else bytesLt as bs

/-- Go `a < b` on strings (bytewise). -/
def keyLt (a b : String) : Bool := bytesLt (strBytes a) (strBytes b)

mutual
/-- A canonical representation of a Go dynamic JSON value: object keys
strictly ascending in Go's string order (Go maps are unordered with
unique keys; `json.Marshal` writes them sorted, so the sorted association
list is the canonical representative), and number literals that scan as a
complete JSON number and do not overflow `float64` (as any literal
re-serialized from a parsed `float64` does). -/
def wellFormed : Json → Bool
  | .obj fs => wfFields fs
  | .arr es => wfList es
  | .num l =>
    (match parseNumber l.data with
      | some (lit, rest) => lit == l.data && rest.isEmpty && !numOverflows lit
      | none => false)
  | _ => true

/-- `wellFormed` for object members: values well-formed, keys strictly
ascending. -/
def wfFields : List (String × Json) → Bool
  | [] => true
  | [kv] => wellFormed kv.2
  | kv :: kv2 :: fs => keyLt kv.1 kv2.1 && wellFormed kv.2 && wfFields (kv2 :: fs)

/-- `wellFormed` for array elements. -/
def wfList : List Json → Bool
  | [] => true
  | v :: es => wellFormed v && wfList es
end

mutual
/-- Nesting depth of a value (objects and arrays count). -/
def jdepth : Json → Nat
  | .obj fs => 1 + jdepthFields fs
  | .arr es => 1 + jdepthList es
  | _ => 0

/-- Maximum `jdepth` of object member values. -/
def jdepthFields : List (String × Json) → Nat
  | [] => 0
  | kv :: fs => max (jdepth kv.2) (jdepthFields fs)

/-- Maximum `jdepth` of array elements. -/
def jdepthList : List Json → Nat
  | [] => 0
  | v :: es => max (jdepth v) (jdepthList es)
end

mutual
/-- Fuel sufficient for `parseF` to parse the serialized form of a value
(a crude upper bound on the number of recursive steps). -/
def pfuel : Json → Nat
  | .obj fs => 2 + pfuelFields fs
  | .arr es => 2 + pfuelList es
  | _ => 1

/-- `pfuel` for object member lists. -/
def pfuelFields : List (String × Json) → Nat
  | [] => 0
  | kv :: fs => 2 + pfuel kv.2 + pfuelFields fs

/-- `pfuel` for array element lists. -/
def pfuelList : List Json → Nat
  | [] => 0
  | v :: es => 2 + pfuel v + pfuelList es
end

/-! ## Statement material for the claims -/

/-- Structural isomorphism at every object/array node: key lists, array
lengths and element order agree, scalar leaves are unchanged, and only
string leaves may become an arbitrary value. -/
inductive SameShape : Json → Json → Prop
  | str (s : String) (v : Json) : SameShape (.str s) v
  | num (l : String) : SameShape (.num l) (.num l)
  | bool (b : Bool) : SameShape (.bool b) (.bool b)
  | null : SameShape .null .null
  | obj (fs fs1 : List (String × Json)) : fs.map Prod.fst = fs1.map Prod.fst →
      List.Forall₂ (fun a b => SameShape a.2 b.2) fs fs1 → SameShape (.obj fs) (.obj fs1)
  | arr (es es1 : List Json) : List.Forall₂ SameShape es es1 → SameShape (.arr es) (.arr es1)

/-- `n` nested singleton arrays around `null`. -/
def deep : Nat → Json
  | 0 => .null
  | n + 1 => .arr [deep n]

/-- Modelled from the spec (for the refinement in claim C1, which is about
the spec's own description of candidacy): quanta of a strict standard
Base64 string — every character from the alphabet `A-Z a-z 0-9 + /`, with
`=` padding only in the final quantum (`xx==` or `xxx=`) and with zero
trailing padding bits; malformed padding or characters rejected. -/
def specB64Quanta : List Nat → Bool
  | [] => true
  | a :: b :: c :: d :: rest =>
    match b64DecodeMap a, b64DecodeMap b with
    | some _, some vb =>
      (match b64DecodeMap c, b64DecodeMap d with
        | some _, some _ => specB64Quanta rest
        | some vc, none =>
          rest.isEmpty && d == 61 && vc % 4 == 0
        | none, _ =>
          rest.isEmpty && c == 61 && d == 61 && vb % 16 == 0)
    | _, _ => false
  | _ => false

/-- Modelled from the spec: a string is a Base64 candidate iff its length
is an exact multiple of 4 and it decodes under strict standard Base64
rules. -/
def specCandidate (s : String) : Bool :=
  byteLen s % 4 == 0 && specB64Quanta (strBytes s)

/-- A continuation on which a serialized JSON value must end inside a
larger document: end of input, or a separator or closer written by the
serializer. -/
def numStop : List Char → Prop
  | [] => True
  | c :: _ => c = ',' ∨ c = '}' ∨ c = ']'

/-! ## Character and byte-length lemmas -/

theorem char_toNat_ofNat {n : Nat} (h : n.isValidChar) : (Char.ofNat n).toNat = n := by
  simp [Char.ofNat, h]
  rfl

theorem char_valid (c : Char) :
    c.toNat < 0xd800 ∨ (0xdfff < c.toNat ∧ c.toNat < 0x110000) := c.valid

theorem utf8Encode_pos (c : Char) : 0 < (utf8Encode c).length := by
  unfold utf8Encode
  split_ifs <;> simp

theorem utf8Encode_le_four (c : Char) : (utf8Encode c).length ≤ 4 := by
  unfold utf8Encode
  split_ifs <;> simp

theorem utf8Encode_le_three (c : Char) (h : c.toNat < 0x10000) :
    (utf8Encode c).length ≤ 3 := by
  unfold utf8Encode
  split_ifs <;> simp_all

theorem utf8Encode_lt_256 (c : Char) : ∀ b ∈ utf8Encode c, b < 256 := by
  have := char_valid c
  intro b hb
  unfold utf8Encode at hb
  split_ifs at hb <;> simp only [List.mem_cons, List.not_mem_nil, or_false] at hb <;>
    rcases hb with h | h | h | h | h <;> omega

theorem utf8Encode_ascii {c : Char} (h : c.toNat < 0x80) : utf8Encode c = [c.toNat] := by
  unfold utf8Encode
  simp [h]

theorem byteLenChars_nil : byteLenChars [] = 0 := rfl

theorem byteLenChars_cons (c : Char) (cs : List Char) :
    byteLenChars (c :: cs) = (utf8Encode c).length + byteLenChars cs := by
  simp [byteLenChars, List.flatMap_cons]

theorem byteLenChars_append (a b : List Char) :
    byteLenChars (a ++ b) = byteLenChars a + byteLenChars b := by
  simp [byteLenChars, List.flatMap_append]

theorem byteLenChars_reverse (l : List Char) : byteLenChars l.reverse = byteLenChars l := by
  induction l with
  | nil => rfl
  | cons c cs ih =>
    simp only [List.reverse_cons, byteLenChars_append, byteLenChars_cons, ih]
    simp [byteLenChars]
    omega

theorem byteLen_mk (cs : List Char) : byteLen (String.mk cs) = byteLenChars cs := rfl

theorem strBytes_mk (cs : List Char) : strBytes (String.mk cs) = cs.flatMap utf8Encode := rfl

theorem length_le_byteLenChars (cs : List Char) : cs.length ≤ byteLenChars cs := by
  induction cs with
  | nil => simp [byteLenChars]
  | cons c cs ih =>
    rw [byteLenChars_cons]
    have := utf8Encode_pos c
    simp only [List.length_cons]
    omega

/-! ## UTF-8 round-trip lemmas -/

theorem utf8Decode_cons_ascii {b : Nat} (bs : List Nat) (h : b < 0x80) :
    utf8Decode (b :: bs) = (utf8Decode bs).map (fun cs => Char.ofNat b :: cs) := by
  match bs with
  | [] => simp [utf8Decode, h]
  | [b1] => simp [utf8Decode, h]
  | [b1, b2] => simp [utf8Decode, h]
  | b1 :: b2 :: b3 :: rest => simp [utf8Decode, h]

theorem utf8Decode_cons2 {b b1 : Nat} (bs : List Nat) (h1 : ¬ b < 0x80)
    (h2 : 0xC2 ≤ b ∧ b ≤ 0xDF) (h3 : u8lo b ≤ b1 ∧ b1 ≤ u8hi b) :
    utf8Decode (b :: b1 :: bs) =
      (utf8Decode bs).map (fun cs => Char.ofNat ((b - 0xC0) * 64 + (b1 - 0x80)) :: cs) := by
  match bs with
  | [] => simp only [utf8Decode]; rw [if_neg h1, if_pos h2, if_pos h3]
  | [b2] => simp only [utf8Decode]; rw [if_neg h1, if_pos h2, if_pos h3]
  | b2 :: b3 :: rest => simp only [utf8Decode]; rw [if_neg h1, if_pos h2, if_pos h3]

theorem utf8Decode_cons3 {b b1 b2 : Nat} (bs : List Nat) (h1 : ¬ b < 0x80)
    (h2 : 0xE0 ≤ b ∧ b ≤ 0xEF) (h3 : (u8lo b ≤ b1 ∧ b1 ≤ u8hi b) ∧ (0x80 ≤ b2 ∧ b2 ≤ 0xBF)) :
    utf8Decode (b :: b1 :: b2 :: bs) =
      (utf8Decode bs).map
        (fun cs => Char.ofNat ((b - 0xE0) * 4096 + (b1 - 0x80) * 64 + (b2 - 0x80)) :: cs) := by
  have h2' : ¬ (0xC2 ≤ b ∧ b ≤ 0xDF) := by omega
  match bs with
  | [] => simp only [utf8Decode]; rw [if_neg h1, if_neg h2', if_pos h2, if_pos h3]
  | b3 :: rest => simp only [utf8Decode]; rw [if_neg h1, if_neg h2', if_pos h2, if_pos h3]

theorem utf8Decode_cons4 {b b1 b2 b3 : Nat} (bs : List Nat) (h1 : ¬ b < 0x80)
    (h2 : 0xF0 ≤ b ∧ b ≤ 0xF4)
    (h3 : (u8lo b ≤ b1 ∧ b1 ≤ u8hi b) ∧ (0x80 ≤ b2 ∧ b2 ≤ 0xBF) ∧ (0x80 ≤ b3 ∧ b3 ≤ 0xBF)) :
    utf8Decode (b :: b1 :: b2 :: b3 :: bs) =
      (utf8Decode bs).map (fun cs =>
        Char.ofNat ((b - 0xF0) * 262144 + (b1 - 0x80) * 4096 +
          (b2 - 0x80) * 64 + (b3 - 0x80)) :: cs) := by
  have h2' : ¬ (0xC2 ≤ b ∧ b ≤ 0xDF) := by omega
  have h2'' : ¬ (0xE0 ≤ b ∧ b ≤ 0xEF) := by omega
  simp only [utf8Decode]
  rw [if_neg h1, if_neg h2', if_neg h2'', if_pos h2, if_pos h3]

theorem utf8Decode_encode_cons (c : Char) (bs : List Nat) :
    utf8Decode (utf8Encode c ++ bs) = (utf8Decode bs).map (fun cs => c :: cs) := by
  have hv := char_valid c
  have hofnat : Char.ofNat c.toNat = c := Char.ofNat_toNat c
  by_cases h1 : c.toNat < 0x80
  · rw [utf8Encode_ascii h1]
    simp only [List.cons_append, List.nil_append]
    rw [utf8Decode_cons_ascii bs h1, hofnat]
  · by_cases h2 : c.toNat < 0x800
    · have hb : utf8Encode c = [0xC0 + c.toNat / 64, 0x80 + c.toNat % 64] := by
        unfold utf8Encode
        rw [if_neg h1, if_pos h2]
      have e3 : u8lo (0xC0 + c.toNat / 64) ≤ 0x80 + c.toNat % 64 := by
        unfold u8lo
        split_ifs <;> omega
      have e4 : 0x80 + c.toNat % 64 ≤ u8hi (0xC0 + c.toNat / 64) := by
        unfold u8hi
        split_ifs <;> omega
      have e5 : (0xC0 + c.toNat / 64 - 0xC0) * 64 + (0x80 + c.toNat % 64 - 0x80) = c.toNat := by
        omega
      rw [hb]
      simp only [List.cons_append, List.nil_append]
      rw [utf8Decode_cons2 bs (by omega) (by constructor <;> omega) ⟨e3, e4⟩, e5, hofnat]
    · by_cases h3 : c.toNat < 0x10000
      · have hb : utf8Encode c =
            [0xE0 + c.toNat / 4096, 0x80 + c.toNat / 64 % 64, 0x80 + c.toNat % 64] := by
          unfold utf8Encode
          rw [if_neg h1, if_neg h2, if_pos h3]
        have e3 : u8lo (0xE0 + c.toNat / 4096) ≤ 0x80 + c.toNat / 64 % 64 := by
          unfold u8lo
          split_ifs <;> omega
        have e4 : 0x80 + c.toNat / 64 % 64 ≤ u8hi (0xE0 + c.toNat / 4096) := by
          unfold u8hi
          split_ifs <;> omega
        have e5 : (0xE0 + c.toNat / 4096 - 0xE0) * 4096 + (0x80 + c.toNat / 64 % 64 - 0x80) * 64 +
            (0x80 + c.toNat % 64 - 0x80) = c.toNat := by
          omega
        rw [hb]
        simp only [List.cons_append, List.nil_append]
        rw [utf8Decode_cons3 bs (by omega) (by constructor <;> omega)
          ⟨⟨e3, e4⟩, by omega, by omega⟩, e5, hofnat]
      · have hb : utf8Encode c = [0xF0 + c.toNat / 262144, 0x80 + c.toNat / 4096 % 64,
            0x80 + c.toNat / 64 % 64, 0x80 + c.toNat % 64] := by
          unfold utf8Encode
          rw [if_neg h1, if_neg h2, if_neg h3]
        have e3 : u8lo (0xF0 + c.toNat / 262144) ≤ 0x80 + c.toNat / 4096 % 64 := by
          unfold u8lo
          split_ifs <;> omega
        have e4 : 0x80 + c.toNat / 4096 % 64 ≤ u8hi (0xF0 + c.toNat / 262144) := by
          unfold u8hi
          split_ifs <;> omega
        have e5 : (0xF0 + c.toNat / 262144 - 0xF0) * 262144 +
            (0x80 + c.toNat / 4096 % 64 - 0x80) * 4096 +
            (0x80 + c.toNat / 64 % 64 - 0x80) * 64 + (0x80 + c.toNat % 64 - 0x80) = c.toNat := by
          omega
        rw [hb]
        simp only [List.cons_append, List.nil_append]
        rw [utf8Decode_cons4 bs (by omega) (by constructor <;> omega)
          ⟨⟨e3, e4⟩, ⟨by omega, by omega⟩, by omega, by omega⟩, e5, hofnat]

theorem utf8Decode_flatMap (cs : List Char) :
    utf8Decode (cs.flatMap utf8Encode) = some cs := by
  induction cs with
  | nil => rfl
  | cons c cs ih =>
    rw [List.flatMap_cons, utf8Decode_encode_cons, ih]
    rfl

theorem utf8Encode_le_two (c : Char) (h : c.toNat < 0x800) : (utf8Encode c).length ≤ 2 := by
  unfold utf8Encode
  split_ifs <;> simp_all

theorem utf8Decode_byteLen : ∀ bs cs, utf8Decode bs = some cs → byteLenChars cs ≤ bs.length := by
  intro bs
  induction bs using utf8Decode.induct with
  | case1 =>
    intro cs h
    simp only [utf8Decode] at h
    cases h
    simp [byteLenChars]
  | case2 b rest hb ih =>
    intro cs h
    rw [utf8Decode_cons_ascii rest hb] at h
    rw [Option.map_eq_some'] at h
    obtain ⟨cs1, hcs1, rfl⟩ := h
    have hv : (Char.ofNat b).toNat = b := char_toNat_ofNat (by unfold Nat.isValidChar; omega)
    have hlen : (utf8Encode (Char.ofNat b)).length = 1 := by
      rw [utf8Encode_ascii (by omega)]
      rfl
    have := ih cs1 hcs1
    rw [byteLenChars_cons]
    simp only [List.length_cons]
    omega
  | case3 b hb =>
    intro cs h
    simp [utf8Decode, hb] at h
  | case4 b hb b1 rest h2 h3 ih =>
    intro cs h
    rw [utf8Decode_cons2 rest hb h2 h3] at h
    rw [Option.map_eq_some'] at h
    obtain ⟨cs1, hcs1, rfl⟩ := h
    have hlo : 0x80 ≤ b1 ∧ b1 ≤ 0xBF := by
      have l := h3.1
      have r := h3.2
      unfold u8lo at l
      unfold u8hi at r
      split_ifs at l r <;> omega
    have hv : (Char.ofNat ((b - 0xC0) * 64 + (b1 - 0x80))).toNat = (b - 0xC0) * 64 + (b1 - 0x80) :=
      char_toNat_ofNat (by unfold Nat.isValidChar; omega)
    have := utf8Encode_le_two (Char.ofNat ((b - 0xC0) * 64 + (b1 - 0x80))) (by omega)
    have := ih cs1 hcs1
    rw [byteLenChars_cons]
    simp only [List.length_cons]
    omega
  | case5 b hb b1 rest h2 h3 =>
    intro cs h
    rw [show utf8Decode (b :: b1 :: rest) = none by
      match rest with
      | [] => simp only [utf8Decode]; rw [if_neg hb, if_pos h2, if_neg h3]
      | [x] => simp only [utf8Decode]; rw [if_neg hb, if_pos h2, if_neg h3]
      | x :: y :: r => simp only [utf8Decode]; rw [if_neg hb, if_pos h2, if_neg h3]] at h
    cases h
  | case6 b hb b1 h2 =>
    intro cs h
    simp only [utf8Decode] at h
    rw [if_neg hb, if_neg h2] at h
    cases h
  | case7 b hb b1 h2 b2 rest h4 h5 ih =>
    intro cs h
    rw [utf8Decode_cons3 rest hb h4 h5] at h
    rw [Option.map_eq_some'] at h
    obtain ⟨cs1, hcs1, rfl⟩ := h
    have hrange : (b = 0xE0 ∧ 0xA0 ≤ b1 ∧ b1 ≤ 0xBF) ∨ (b = 0xED ∧ 0x80 ≤ b1 ∧ b1 ≤ 0x9F) ∨
        (b ≠ 0xE0 ∧ b ≠ 0xED ∧ 0x80 ≤ b1 ∧ b1 ≤ 0xBF) := by
      have l := h5.1.1
      have r := h5.1.2
      unfold u8lo at l
      unfold u8hi at r
      split_ifs at l r <;> omega
    have hv : (Char.ofNat ((b - 0xE0) * 4096 + (b1 - 0x80) * 64 + (b2 - 0x80))).toNat =
        (b - 0xE0) * 4096 + (b1 - 0x80) * 64 + (b2 - 0x80) :=
      char_toNat_ofNat (by unfold Nat.isValidChar; omega)
    have := utf8Encode_le_three (Char.ofNat ((b - 0xE0) * 4096 + (b1 - 0x80) * 64 + (b2 - 0x80)))
      (by omega)
    have := ih cs1 hcs1
    rw [byteLenChars_cons]
    simp only [List.length_cons]
    omega
  | case8 b hb b1 h2 b2 rest h4 h5 =>
    intro cs h
    rw [show utf8Decode (b :: b1 :: b2 :: rest) = none by
      match rest with
      | [] => simp only [utf8Decode]; rw [if_neg hb, if_neg h2, if_pos h4, if_neg h5]
      | x :: r => simp only [utf8Decode]; rw [if_neg hb, if_neg h2, if_pos h4, if_neg h5]] at h
    cases h
  | case9 b hb b1 h2 b2 h4 =>
    intro cs h
    simp only [utf8Decode] at h
    rw [if_neg hb, if_neg h2, if_neg h4] at h
    cases h
  | case10 b hb b1 h2 b2 h4 b3 rest h6 h7 ih =>
    intro cs h
    rw [utf8Decode_cons4 rest hb h6 h7] at h
    rw [Option.map_eq_some'] at h
    obtain ⟨cs1, hcs1, rfl⟩ := h
    have := utf8Encode_le_four (Char.ofNat ((b - 0xF0) * 262144 + (b1 - 0x80) * 4096 +
      (b2 - 0x80) * 64 + (b3 - 0x80)))
    have := ih cs1 hcs1
    rw [byteLenChars_cons]
    simp only [List.length_cons]
    omega
  | case11 b hb b1 h2 b2 h4 b3 rest h6 h7 =>
    intro cs h
    rw [show utf8Decode (b :: b1 :: b2 :: b3 :: rest) = none by
      simp only [utf8Decode]
      rw [if_neg hb, if_neg h2, if_neg h4, if_pos h6, if_neg h7]] at h
    cases h
  | case12 b hb b1 h2 b2 h4 b3 rest h6 =>
    intro cs h
    rw [show utf8Decode (b :: b1 :: b2 :: b3 :: rest) = none by
      simp only [utf8Decode]
      rw [if_neg hb, if_neg h2, if_neg h4, if_neg h6]] at h
    cases h

/-! ## TrimSpace lemmas -/

theorem byteLenChars_dropWhile (p : Char → Bool) (cs : List Char) :
    byteLenChars (cs.dropWhile p) ≤ byteLenChars cs := by
  induction cs with
  | nil => simp [byteLenChars]
  | cons c cs ih =>
    rw [List.dropWhile_cons]
    split_ifs
    · rw [byteLenChars_cons]
      omega
    · exact Nat.le_refl _

theorem byteLenChars_trimSpace (cs : List Char) :
    byteLenChars (trimSpace cs) ≤ byteLenChars cs := by
  unfold trimSpace
  calc byteLenChars ((cs.dropWhile goIsSpace).reverse.dropWhile goIsSpace).reverse
      = byteLenChars ((cs.dropWhile goIsSpace).reverse.dropWhile goIsSpace) :=
        byteLenChars_reverse _
    _ ≤ byteLenChars (cs.dropWhile goIsSpace).reverse := byteLenChars_dropWhile _ _
    _ = byteLenChars (cs.dropWhile goIsSpace) := byteLenChars_reverse _
    _ ≤ byteLenChars cs := byteLenChars_dropWhile _ _

theorem trimSpace_eq_self {cs : List Char} (h1 : ∀ c, cs.head? = some c → goIsSpace c = false)
    (h2 : ∀ c, cs.getLast? = some c → goIsSpace c = false) : trimSpace cs = cs := by
  unfold trimSpace
  match hcs : cs with
  | [] => rfl
  | c :: cs1 =>
    rw [List.dropWhile_cons, h1 c rfl]
    simp only [Bool.false_eq_true, if_false]
    have hlast : ∀ d, (c :: cs1).reverse.head? = some d → goIsSpace d = false := by
      intro d hd
      apply h2
      rwa [← List.head?_reverse]
    match hrev : (c :: cs1).reverse with
    | [] => simp at hrev
    | d :: ds =>
      rw [List.dropWhile_cons, hlast d (by rw [hrev]; rfl)]
      simp only [Bool.false_eq_true, if_false]
      rw [← hrev, List.reverse_reverse]

/-! ## Base64 lemmas -/

theorem b64Emit_le_three (dbuf : List Nat) : (b64Emit dbuf).length ≤ 3 := by
  unfold b64Emit
  split <;> simp

theorem b64Emit_len2 {dbuf : List Nat} (h : dbuf.length = 2) : (b64Emit dbuf).length = 1 := by
  match dbuf with
  | [b0, b1] => rfl

theorem b64Emit_len3 {dbuf : List Nat} (h : dbuf.length = 3) : (b64Emit dbuf).length = 2 := by
  match dbuf with
  | [b0, b1, b2] => rfl

theorem b64Emit_len4 {dbuf : List Nat} (h : dbuf.length = 4) : (b64Emit dbuf).length = 3 := by
  match dbuf with
  | [b0, b1, b2, b3] => rfl

theorem dqGo_bound : ∀ dbuf src out rest, dqGo dbuf src = some (out, rest) →
    rest.length ≤ src.length ∧
      out.length * 4 ≤ (dbuf.length + (src.length - rest.length)) * 3 := by
  intro dbuf src
  induction dbuf, src using dqGo.induct with
  | case1 t dbuf h =>
    intro out rest1 hd
    rw [dqGo.eq_def, if_pos h] at hd
    cases hd
    have := b64Emit_len4 h
    constructor
    · exact Nat.le_refl _
    · omega
  | case2 dbuf h h2 =>
    intro out rest1 hd
    rw [dqGo.eq_def, if_neg h] at hd
    simp only [h2, if_true] at hd
    cases hd
    simp
  | case3 dbuf h h2 =>
    intro out rest1 hd
    rw [dqGo.eq_def, if_neg h] at hd
    simp only [h2] at hd
    simp at hd
  | case4 dbuf h b rest v hmap ih =>
    intro out rest1 hd
    rw [dqGo.eq_def, if_neg h] at hd
    simp only [hmap] at hd
    obtain ⟨ha, hb2⟩ := ih out rest1 hd
    simp only [List.length_append, List.length_cons, List.length_nil] at hb2
    simp only [List.length_cons]
    omega
  | case5 dbuf h b rest hmap hnl ih =>
    intro out rest1 hd
    rw [dqGo.eq_def, if_neg h] at hd
    simp only [hmap, if_pos hnl] at hd
    obtain ⟨ha, hb2⟩ := ih out rest1 hd
    simp only [List.length_cons]
    omega
  | case6 dbuf h rest h2 rest2 hdr hemp hmap hnl =>
    intro out rest1 hd
    rw [dqGo.eq_def, if_neg h] at hd
    simp only [hmap, if_neg hnl, if_pos rfl, h2, hdr, hemp, if_true] at hd
    cases hd
    have := b64Emit_len2 h2
    simp only [List.length_cons, List.length_nil]
    omega
  | case7 dbuf h rest h2 rest2 hdr hemp hmap hnl =>
    intro out rest1 hd
    rw [dqGo.eq_def, if_neg h] at hd
    simp only [hmap, if_neg hnl, if_pos rfl, h2, hdr, hemp] at hd
    simp at hd
  | case8 dbuf h rest h2 hdr hmap hnl =>
    intro out rest1 hd
    rw [dqGo.eq_def, if_neg h] at hd
    simp only [hmap, if_neg hnl, if_pos rfl, if_true, h2] at hd
    cases hd
  | case9 dbuf h rest h3 hemp hmap hnl =>
    intro out rest1 hd
    rw [dqGo.eq_def, if_neg h] at hd
    simp only [hmap, if_neg hnl, if_pos rfl, h3, hemp, if_true] at hd
    cases hd
    have := b64Emit_len3 h3
    simp only [List.length_cons, List.length_nil]
    omega
  | case10 dbuf h rest h3 hemp hmap hnl =>
    intro out rest1 hd
    rw [dqGo.eq_def, if_neg h] at hd
    simp only [hmap, if_neg hnl, if_pos rfl, h3, hemp] at hd
    simp at hd
  | case11 dbuf h rest h2 h3 hmap hnl =>
    intro out rest1 hd
    rw [dqGo.eq_def, if_neg h] at hd
    simp only [hmap, if_neg hnl, if_pos rfl, if_true] at hd
    cases hd
  | case12 dbuf h b rest hmap hnl hne =>
    intro out rest1 hd
    rw [dqGo.eq_def, if_neg h] at hd
    simp only [hmap, if_neg hnl, if_neg hne] at hd
    cases hd

theorem dqGo_consume {b : Nat} {rest out r : List Nat}
    (hd : dqGo [] (b :: rest) = some (out, r)) : r.length ≤ rest.length := by
  rw [dqGo.eq_def] at hd
  simp only [List.length_nil, List.isEmpty_nil] at hd
  rw [if_neg (by omega)] at hd
  rcases hm : b64DecodeMap b with _ | v
  · rw [hm] at hd
    simp only [] at hd
    split_ifs at hd with h1 h2
    · exact (dqGo_bound _ _ _ _ hd).1
  · rw [hm] at hd
    simp only [] at hd
    exact (dqGo_bound _ _ _ _ hd).1

theorem goB64DecodeLoop_bound : ∀ fuel src out, goB64DecodeLoop fuel src = some out →
    4 * out.length ≤ 3 * src.length := by
  intro fuel
  induction fuel with
  | zero =>
    intro src out h
    match src with
    | [] =>
      simp only [goB64DecodeLoop] at h
      cases h
      simp
  | succ fuel ih =>
    intro src out h
    match src with
    | [] =>
      simp only [goB64DecodeLoop] at h
      cases h
      simp
    | b :: rest =>
      simp only [goB64DecodeLoop] at h
      rcases hq : dqGo [] (b :: rest) with _ | ⟨o, r1⟩
      · rw [hq] at h
        cases h
      · rw [hq] at h
        simp only [Option.map_eq_some'] at h
        obtain ⟨tl, htl, rfl⟩ := h
        have hb := dqGo_bound _ _ _ _ hq
        have := ih r1 tl htl
        simp only [List.length_append, List.length_nil, List.length_cons] at *
        omega

theorem goB64Decode_bound {bs d : List Nat} (h : goB64Decode bs = some d) :
    4 * d.length ≤ 3 * bs.length :=
  goB64DecodeLoop_bound _ _ _ h

/-- A byte the Go base64 decoder can consume: alphabet, padding, CR or
LF. -/
def b64AcceptedByte (b : Nat) : Bool :=
  (b64DecodeMap b).isSome || b == 61 || b == 10 || b == 13

theorem mem_dropCRLF_src {l l2 : List Nat} (hl : dropCRLF l = l2) :
    ∀ b ∈ l, b = 10 ∨ b = 13 ∨ b ∈ l2 := by
  intro b hb
  subst hl
  unfold dropCRLF
  rcases List.append_of_mem hb with ⟨p, q, rfl⟩
  by_cases hmem : b ∈ (p ++ b :: q).dropWhile fun x => x == 10 || x == 13
  · right; right; exact hmem
  · have hsplit := List.takeWhile_append_dropWhile (fun x : Nat => x == 10 || x == 13)
      (p ++ b :: q)
    have : b ∈ (p ++ b :: q).takeWhile fun x : Nat => x == 10 || x == 13 := by
      have hb2 : b ∈ (p ++ b :: q) := hb
      rw [← hsplit] at hb2
      rcases List.mem_append.1 hb2 with h | h
      · exact h
      · exact absurd h hmem
    have := List.mem_takeWhile_imp this
    simp at this
    omega

theorem dqGo_accepted : ∀ dbuf src out rest, dqGo dbuf src = some (out, rest) →
    ∀ b ∈ src, b ∈ rest ∨ b64AcceptedByte b = true := by
  intro dbuf src
  induction dbuf, src using dqGo.induct with
  | case1 t dbuf h =>
    intro out rest1 hd b hb
    rw [dqGo.eq_def, if_pos h] at hd
    cases hd
    exact Or.inl hb
  | case2 dbuf h h2 =>
    intro out rest1 hd b hb
    cases hb
  | case3 dbuf h h2 =>
    intro out rest1 hd b hb
    cases hb
  | case4 dbuf h b0 rest v hmap ih =>
    intro out rest1 hd b hb
    rw [dqGo.eq_def, if_neg h] at hd
    simp only [hmap] at hd
    rcases List.mem_cons.1 hb with rfl | hb
    · right
      simp [b64AcceptedByte, hmap]
    · exact ih out rest1 hd b hb
  | case5 dbuf h b0 rest hmap hnl ih =>
    intro out rest1 hd b hb
    rw [dqGo.eq_def, if_neg h] at hd
    simp only [hmap, if_pos hnl] at hd
    rcases List.mem_cons.1 hb with rfl | hb
    · right
      simp only [b64AcceptedByte]
      rcases hnl with h10 | h13 <;> subst_eqs <;> rfl
    · exact ih out rest1 hd b hb
  | case6 dbuf h rest h2 rest2 hdr hemp hmap hnl =>
    intro out rest1 hd b hb
    right
    rcases List.mem_cons.1 hb with rfl | hb
    · rfl
    · have h61 := mem_dropCRLF_src hdr b hb
      have hrest2 : ∀ x ∈ rest2, x = 10 ∨ x = 13 := by
        intro x hx
        have hh := @mem_dropCRLF_src rest2 (dropCRLF rest2) rfl x hx
        rw [List.isEmpty_iff] at hemp
        rw [hemp] at hh
        rcases hh with h | h | h
        · exact Or.inl h
        · exact Or.inr h
        · cases h
      rcases h61 with h | h | h
      · subst h; rfl
      · subst h; rfl
      · rcases List.mem_cons.1 h with rfl | h
        · rfl
        · rcases hrest2 b h with rfl | rfl <;> rfl
  | case7 dbuf h rest h2 rest2 hdr hemp hmap hnl =>
    intro out rest1 hd b hb
    rw [dqGo.eq_def, if_neg h] at hd
    simp only [hmap, if_neg hnl, if_pos rfl, if_true, h2, hdr, hemp] at hd
    simp at hd
  | case8 dbuf h rest h2 hdr hmap hnl =>
    intro out rest1 hd b hb
    rw [dqGo.eq_def, if_neg h] at hd
    simp only [hmap, if_neg hnl, if_pos rfl, if_true, h2] at hd
    cases hd
  | case9 dbuf h rest h3 hemp hmap hnl =>
    intro out rest1 hd b hb
    right
    rcases List.mem_cons.1 hb with rfl | hb
    · rfl
    · rw [List.isEmpty_iff] at hemp
      have := mem_dropCRLF_src hemp b hb
      rcases this with h | h | h
      · subst h; rfl
      · subst h; rfl
      · cases h
  | case10 dbuf h rest h3 hemp hmap hnl =>
    intro out rest1 hd b hb
    rw [dqGo.eq_def, if_neg h] at hd
    simp only [hmap, if_neg hnl, if_pos rfl, h3, hemp] at hd
    simp at hd
  | case11 dbuf h rest h2 h3 hmap hnl =>
    intro out rest1 hd b hb
    rw [dqGo.eq_def, if_neg h] at hd
    simp only [hmap, if_neg hnl, if_pos rfl, if_true] at hd
    cases hd
  | case12 dbuf h b0 rest hmap hnl hne =>
    intro out rest1 hd b hb
    rw [dqGo.eq_def, if_neg h] at hd
    simp only [hmap, if_neg hnl, if_neg hne] at hd
    cases hd

theorem goB64DecodeLoop_accepted : ∀ fuel src out, goB64DecodeLoop fuel src = some out →
    ∀ b ∈ src, b64AcceptedByte b = true := by
  intro fuel
  induction fuel with
  | zero =>
    intro src out h b hb
    match src with
    | [] => cases hb
  | succ fuel ih =>
    intro src out h b hb
    match src with
    | [] => cases hb
    | x :: rest =>
      simp only [goB64DecodeLoop] at h
      rcases hq : dqGo [] (x :: rest) with _ | ⟨o, r1⟩
      · rw [hq] at h
        cases h
      · rw [hq] at h
        simp only [Option.map_eq_some'] at h
        obtain ⟨tl, htl, rfl⟩ := h
        rcases dqGo_accepted _ _ _ _ hq b hb with hmem | hok
        · have hr1 : ∀ y ∈ r1, b64AcceptedByte y = true := ih r1 tl htl
          exact hr1 b hmem
        · exact hok

theorem goB64Decode_accepted {bs d : List Nat} (h : goB64Decode bs = some d) :
    ∀ b ∈ bs, b64AcceptedByte b = true :=
  goB64DecodeLoop_accepted _ _ _ h

theorem b64EncodeMap_lt (v : Nat) : b64EncodeMap v < 128 := by
  unfold b64EncodeMap
  split_ifs <;> omega

theorem b64DecodeMap_encodeMap {v : Nat} (h : v < 64) :
    b64DecodeMap (b64EncodeMap v) = some v := by
  unfold b64EncodeMap b64DecodeMap
  split_ifs <;> first | (congr 1; omega) | omega

theorem b64EncodeBytes_len_mod (bs : List Nat) : (b64EncodeBytes bs).length % 4 = 0 := by
  induction bs using b64EncodeBytes.induct with
  | case1 => rfl
  | case2 b0 => simp [b64EncodeBytes]
  | case3 b0 b1 => simp [b64EncodeBytes]
  | case4 b0 b1 b2 rest ih =>
    simp only [b64EncodeBytes, List.length_cons]
    omega

theorem b64EncodeBytes_len_ge (bs : List Nat) : bs.length ≤ (b64EncodeBytes bs).length := by
  induction bs using b64EncodeBytes.induct with
  | case1 => simp [b64EncodeBytes]
  | case2 b0 => simp [b64EncodeBytes]
  | case3 b0 b1 => simp [b64EncodeBytes]
  | case4 b0 b1 b2 rest ih =>
    simp only [b64EncodeBytes, List.length_cons] at *
    omega

theorem b64EncodeBytes_lt128 (bs : List Nat) : ∀ x ∈ b64EncodeBytes bs, x < 128 := by
  induction bs using b64EncodeBytes.induct with
  | case1 => intro x hx; cases hx
  | case2 b0 =>
    intro x hx
    simp only [b64EncodeBytes, List.mem_cons, List.not_mem_nil, or_false] at hx
    rcases hx with rfl | rfl | rfl | rfl <;> first | exact b64EncodeMap_lt _ | omega
  | case3 b0 b1 =>
    intro x hx
    simp only [b64EncodeBytes, List.mem_cons, List.not_mem_nil, or_false] at hx
    rcases hx with rfl | rfl | rfl | rfl <;> first | exact b64EncodeMap_lt _ | omega
  | case4 b0 b1 b2 rest ih =>
    intro x hx
    simp only [b64EncodeBytes, List.mem_cons] at hx
    rcases hx with rfl | rfl | rfl | rfl | hx
    · exact b64EncodeMap_lt _
    · exact b64EncodeMap_lt _
    · exact b64EncodeMap_lt _
    · exact b64EncodeMap_lt _
    · exact ih x hx

theorem dqGo_data {b v : Nat} {dbuf rest : List Nat} (hm : b64DecodeMap b = some v)
    (hl : dbuf.length ≠ 4) : dqGo dbuf (b :: rest) = dqGo (dbuf ++ [v]) rest := by
  rw [dqGo.eq_def, if_neg hl]
  simp only [hm]

theorem dqGo_full {dbuf src : List Nat} (h : dbuf.length = 4) :
    dqGo dbuf src = some (b64Emit dbuf, src) := by
  rw [dqGo.eq_def, if_pos h]

theorem dqGo_pad2 {dbuf : List Nat} (h : dbuf.length = 2) :
    dqGo dbuf [61, 61] = some (b64Emit dbuf, []) := by
  rw [dqGo.eq_def, if_neg (by omega)]
  simp only [h]
  rfl

theorem dqGo_pad3 {dbuf : List Nat} (h : dbuf.length = 3) :
    dqGo dbuf [61] = some (b64Emit dbuf, []) := by
  rw [dqGo.eq_def, if_neg (by omega)]
  simp only [h]
  rfl

theorem goB64DecodeLoop_encode : ∀ bs fuel, (∀ b ∈ bs, b < 256) → bs.length ≤ 3 * fuel →
    goB64DecodeLoop fuel (b64EncodeBytes bs) = some bs := by
  intro bs
  induction bs using b64EncodeBytes.induct with
  | case1 =>
    intro fuel hb hf
    simp [b64EncodeBytes, goB64DecodeLoop]
  | case2 b0 =>
    intro fuel hb hf
    have hb0 : b0 < 256 := hb b0 (by simp)
    have h0 : b64DecodeMap (b64EncodeMap (b0 / 4)) = some (b0 / 4) :=
      b64DecodeMap_encodeMap (by omega)
    have h1 : b64DecodeMap (b64EncodeMap (b0 % 4 * 16)) = some (b0 % 4 * 16) :=
      b64DecodeMap_encodeMap (by omega)
    match fuel with
    | 0 => simp at hf
    | f + 1 =>
      simp only [b64EncodeBytes, goB64DecodeLoop]
      rw [dqGo_data h0 (by simp), dqGo_data h1 (by simp), dqGo_pad2 (by simp)]
      simp only [List.nil_append, List.cons_append, List.append_nil, b64Emit]
      rw [show b0 / 4 * 4 + b0 % 4 * 16 / 16 = b0 by omega]
      simp [goB64DecodeLoop]
  | case3 b0 b1 =>
    intro fuel hb hf
    have hb0 : b0 < 256 := hb b0 (by simp)
    have hb1 : b1 < 256 := hb b1 (by simp)
    have h0 : b64DecodeMap (b64EncodeMap (b0 / 4)) = some (b0 / 4) :=
      b64DecodeMap_encodeMap (by omega)
    have h1 : b64DecodeMap (b64EncodeMap (b0 % 4 * 16 + b1 / 16)) =
        some (b0 % 4 * 16 + b1 / 16) := b64DecodeMap_encodeMap (by omega)
    have h2 : b64DecodeMap (b64EncodeMap (b1 % 16 * 4)) = some (b1 % 16 * 4) :=
      b64DecodeMap_encodeMap (by omega)
    match fuel with
    | 0 => simp at hf
    | f + 1 =>
      simp only [b64EncodeBytes, goB64DecodeLoop]
      rw [dqGo_data h0 (by simp), dqGo_data h1 (by simp), dqGo_data h2 (by simp),
        dqGo_pad3 (by simp)]
      simp only [List.nil_append, List.cons_append, List.append_nil, b64Emit]
      rw [show b0 / 4 * 4 + (b0 % 4 * 16 + b1 / 16) / 16 = b0 by omega,
        show (b0 % 4 * 16 + b1 / 16) % 16 * 16 + b1 % 16 * 4 / 4 = b1 by omega]
      simp [goB64DecodeLoop]
  | case4 b0 b1 b2 rest ih =>
    intro fuel hb hf
    have hb0 : b0 < 256 := hb b0 (by simp)
    have hb1 : b1 < 256 := hb b1 (by simp)
    have hb2 : b2 < 256 := hb b2 (by simp)
    have h0 : b64DecodeMap (b64EncodeMap (b0 / 4)) = some (b0 / 4) :=
      b64DecodeMap_encodeMap (by omega)
    have h1 : b64DecodeMap (b64EncodeMap (b0 % 4 * 16 + b1 / 16)) =
        some (b0 % 4 * 16 + b1 / 16) := b64DecodeMap_encodeMap (by omega)
    have h2 : b64DecodeMap (b64EncodeMap (b1 % 16 * 4 + b2 / 64)) =
        some (b1 % 16 * 4 + b2 / 64) := b64DecodeMap_encodeMap (by omega)
    have h3 : b64DecodeMap (b64EncodeMap (b2 % 64)) = some (b2 % 64) :=
      b64DecodeMap_encodeMap (by omega)
    match fuel with
    | 0 => simp at hf
    | f + 1 =>
      simp only [b64EncodeBytes, goB64DecodeLoop]
      rw [dqGo_data h0 (by simp), dqGo_data h1 (by simp), dqGo_data h2 (by simp),
        dqGo_data h3 (by simp), dqGo_full (by simp)]
      simp only [List.nil_append, List.cons_append, List.append_nil, b64Emit]
      rw [show b0 / 4 * 4 + (b0 % 4 * 16 + b1 / 16) / 16 = b0 by omega,
        show (b0 % 4 * 16 + b1 / 16) % 16 * 16 + (b1 % 16 * 4 + b2 / 64) / 4 = b1 by omega,
        show (b1 % 16 * 4 + b2 / 64) % 4 * 64 + b2 % 64 = b2 by omega]
      rw [ih f (fun b hbm => hb b (by simp [hbm])) (by simp only [List.length_cons] at hf; omega)]
      rfl

theorem goB64Decode_encode {bs : List Nat} (h : ∀ b ∈ bs, b < 256) :
    goB64Decode (b64EncodeBytes bs) = some bs := by
  unfold goB64Decode
  exact goB64DecodeLoop_encode bs _ h
    (Nat.le_trans (b64EncodeBytes_len_ge bs) (by omega))

/-! ## String-body scanner lemmas -/

theorem char_eq_of_toNat {a b : Char} (h : a.toNat = b.toNat) : a = b := by
  apply Char.eq_of_val_eq
  apply UInt32.toNat.inj
  exact h

theorem encLen_ascii {c : Char} (h : c.toNat < 0x80) : (utf8Encode c).length = 1 := by
  rw [utf8Encode_ascii h]
  rfl

theorem hexVal_lt {c : Char} {a : Nat} (h : hexVal c = some a) : c.toNat < 0x80 ∧ a < 16 := by
  unfold hexVal at h
  split_ifs at h with h1 h2 h3
  · have l : (48 : Nat) ≤ c.toNat := h1.1
    have r : c.toNat ≤ (57 : Nat) := h1.2
    cases h
    exact ⟨by omega, by omega⟩
  · have l : (97 : Nat) ≤ c.toNat := h2.1
    have r : c.toNat ≤ (102 : Nat) := h2.2
    cases h
    exact ⟨by omega, by omega⟩
  · have l : (65 : Nat) ≤ c.toNat := h3.1
    have r : c.toNat ≤ (70 : Nat) := h3.2
    cases h
    exact ⟨by omega, by omega⟩

theorem getu4_bytes : ∀ cs n rest, getu4 cs = some (n, rest) →
    n < 0x10000 ∧ byteLenChars cs = 6 + byteLenChars rest ∧ cs.length = rest.length + 6 := by
  intro cs n rest h
  rw [getu4.eq_def] at h
  split at h
  · rename_i h1 h2 h3 h4 rest1
    rcases hx1 : hexVal h1 with _ | a1 <;> rw [hx1] at h
    · simp at h
    rcases hx2 : hexVal h2 with _ | a2 <;> rw [hx2] at h
    · simp at h
    rcases hx3 : hexVal h3 with _ | a3 <;> rw [hx3] at h
    · simp at h
    rcases hx4 : hexVal h4 with _ | a4 <;> rw [hx4] at h
    · simp at h
    simp only [Option.some.injEq, Prod.mk.injEq] at h
    obtain ⟨rfl, rfl⟩ := h
    have ha1 := hexVal_lt hx1
    have ha2 := hexVal_lt hx2
    have ha3 := hexVal_lt hx3
    have ha4 := hexVal_lt hx4
    refine ⟨by omega, ?_, by simp⟩
    simp only [byteLenChars_cons, show (utf8Encode '\\').length = 1 by decide,
      show (utf8Encode 'u').length = 1 by decide, encLen_ascii ha1.1,
      encLen_ascii ha2.1, encLen_ascii ha3.1, encLen_ascii ha4.1]
    omega
  · cases h

theorem strStep_measure : ∀ cs ch rest1, strStep cs = some (ch, rest1) →
    (utf8Encode ch).length + byteLenChars rest1 ≤ byteLenChars cs ∧
      rest1.length < cs.length := by
  intro cs ch rest1 h
  match cs with
  | [] => simp [strStep] at h
  | c :: rest =>
    by_cases hc : c = '\\'
    · subst hc
      match rest with
      | [] => simp [strStep] at h
      | e :: rest2 =>
        simp only [strStep, if_pos rfl, if_true] at h
        by_cases he : e = '\"'
        · rw [if_pos he] at h
          cases h
          subst he
          refine ⟨?_, by simp only [List.length_cons]; omega⟩
          simp only [byteLenChars_cons, show (utf8Encode '\\').length = 1 by decide,
            show (utf8Encode '\"').length = 1 by decide,
            show (utf8Encode ('\"')).length = 1 by decide]
          omega
        · rw [if_neg he] at h
          by_cases he2 : e = '\\'
          · rw [if_pos he2] at h
            cases h
            subst he2
            refine ⟨?_, by simp only [List.length_cons]; omega⟩
            simp only [byteLenChars_cons, show (utf8Encode '\\').length = 1 by decide,
              show (utf8Encode '\\').length = 1 by decide,
              show (utf8Encode ('\\')).length = 1 by decide]
            omega
          · rw [if_neg he2] at h
            by_cases he3 : e = '/'
            · rw [if_pos he3] at h
              cases h
              subst he3
              refine ⟨?_, by simp only [List.length_cons]; omega⟩
              simp only [byteLenChars_cons, show (utf8Encode '\\').length = 1 by decide,
                show (utf8Encode '/').length = 1 by decide,
                show (utf8Encode ('/')).length = 1 by decide]
              omega
            · rw [if_neg he3] at h
              by_cases he4 : e = 'b'
              · rw [if_pos he4] at h
                cases h
                subst he4
                refine ⟨?_, by simp only [List.length_cons]; omega⟩
                simp only [byteLenChars_cons, show (utf8Encode '\\').length = 1 by decide,
                  show (utf8Encode 'b').length = 1 by decide,
                  show (utf8Encode (Char.ofNat 8)).length = 1 by decide]
                omega
              · rw [if_neg he4] at h
                by_cases he5 : e = 'f'
                · rw [if_pos he5] at h
                  cases h
                  subst he5
                  refine ⟨?_, by simp only [List.length_cons]; omega⟩
                  simp only [byteLenChars_cons, show (utf8Encode '\\').length = 1 by decide,
                    show (utf8Encode 'f').length = 1 by decide,
                    show (utf8Encode (Char.ofNat 12)).length = 1 by decide]
                  omega
                · rw [if_neg he5] at h
                  by_cases he6 : e = 'n'
                  · rw [if_pos he6] at h
                    cases h
                    subst he6
                    refine ⟨?_, by simp only [List.length_cons]; omega⟩
                    simp only [byteLenChars_cons, show (utf8Encode '\\').length = 1 by decide,
                      show (utf8Encode 'n').length = 1 by decide,
                      show (utf8Encode ('\n')).length = 1 by decide]
                    omega
                  · rw [if_neg he6] at h
                    by_cases he7 : e = 'r'
                    · rw [if_pos he7] at h
                      cases h
                      subst he7
                      refine ⟨?_, by simp only [List.length_cons]; omega⟩
                      simp only [byteLenChars_cons, show (utf8Encode '\\').length = 1 by decide,
                        show (utf8Encode 'r').length = 1 by decide,
                        show (utf8Encode ('\r')).length = 1 by decide]
                      omega
                    · rw [if_neg he7] at h
                      by_cases he8 : e = 't'
                      · rw [if_pos he8] at h
                        cases h
                        subst he8
                        refine ⟨?_, by simp only [List.length_cons]; omega⟩
                        simp only [byteLenChars_cons, show (utf8Encode '\\').length = 1 by decide,
                          show (utf8Encode 't').length = 1 by decide,
                          show (utf8Encode ('\t')).length = 1 by decide]
                        omega
                      · rw [if_neg he8] at h
                        by_cases he9 : e = 'u'
                        · rw [if_pos he9] at h
                          subst he9
                          rcases hg : getu4 ('\\' :: 'u' :: rest2) with _ | ⟨n, rest3⟩ <;> rw [hg] at h
                          · cases h
                          obtain ⟨hn, hblc, hlen⟩ := getu4_bytes _ _ _ hg
                          simp only [List.length_cons] at hlen
                          split at h
                          · rename_i heq
                            simp at heq
                          rename_i n1 rest31 heq
                          simp only [Option.some.injEq, Prod.mk.injEq] at heq
                          obtain ⟨h1, h2⟩ := heq
                          subst h1
                          subst h2
                          split_ifs at h with hsH hsL
                          · rcases hg2 : getu4 rest3 with _ | ⟨m, rest4⟩ <;> rw [hg2] at h
                            · dsimp only at h
                              rw [Option.some.injEq, Prod.mk.injEq] at h
                              obtain ⟨hch, hrest⟩ := h
                              subst hrest
                              have hb4 := utf8Encode_le_four ch
                              refine ⟨by omega, ?_⟩
                              simp only [List.length_cons]
                              omega
                            obtain ⟨hm, hblc2, hlen2⟩ := getu4_bytes _ _ _ hg2
                            split at h
                            · rename_i m1 rest41 heq2
                              simp only [Option.some.injEq, Prod.mk.injEq] at heq2
                              obtain ⟨hq1, hq2⟩ := heq2
                              subst hq1
                              subst hq2
                              split_ifs at h with hsL2
                              · rw [Option.some.injEq, Prod.mk.injEq] at h
                                obtain ⟨hch, hrest⟩ := h
                                subst hrest
                                have hb4 := utf8Encode_le_four ch
                                refine ⟨by omega, ?_⟩
                                simp only [List.length_cons]
                                omega
                              · rw [Option.some.injEq, Prod.mk.injEq] at h
                                obtain ⟨hch, hrest⟩ := h
                                subst hrest
                                have hb4 := utf8Encode_le_four ch
                                refine ⟨by omega, ?_⟩
                                simp only [List.length_cons]
                                omega
                            · rename_i heq2
                              simp at heq2
                          · rw [Option.some.injEq, Prod.mk.injEq] at h
                            obtain ⟨hch, hrest⟩ := h
                            subst hrest
                            have hb4 := utf8Encode_le_four ch
                            refine ⟨by omega, ?_⟩
                            simp only [List.length_cons]
                            omega
                          · rw [Option.some.injEq, Prod.mk.injEq] at h
                            obtain ⟨hch, hrest⟩ := h
                            subst hrest
                            have hb4 := utf8Encode_le_four ch
                            refine ⟨by omega, ?_⟩
                            simp only [List.length_cons]
                            omega
                        · rw [if_neg he9] at h
                          cases h
    · simp only [strStep, if_neg hc] at h
      by_cases h20 : c.toNat < 0x20
      · rw [if_pos h20] at h
        cases h
      · rw [if_neg h20] at h
        cases h
        rw [byteLenChars_cons]
        refine ⟨by omega, by simp⟩

theorem parseStringBodyF_measure : ∀ fuel cs content rest,
    parseStringBodyF fuel cs = some (content, rest) →
    byteLenChars content + 1 + byteLenChars rest ≤ byteLenChars cs := by
  intro fuel
  induction fuel with
  | zero =>
    intro cs c r h
    simp [parseStringBodyF] at h
  | succ fuel ih =>
    intro cs content rest h
    match cs with
    | [] => simp [parseStringBodyF] at h
    | c :: rest0 =>
      simp only [parseStringBodyF] at h
      by_cases hq : c = '"'
      · rw [if_pos hq] at h
        cases h
        subst hq
        rw [byteLenChars_cons, show (utf8Encode '"').length = 1 by decide]
        simp [byteLenChars]
      · rw [if_neg hq] at h
        rcases hs : strStep (c :: rest0) with _ | ⟨ch, rest1⟩ <;> rw [hs] at h
        · cases h
        rw [Option.map_eq_some'] at h
        obtain ⟨p, hp, hpe⟩ := h
        rw [Prod.mk.injEq] at hpe
        obtain ⟨hpc, hpr⟩ := hpe
        subst hpc
        subst hpr
        have hm := strStep_measure _ _ _ hs
        have hr := ih rest1 p.1 p.2 hp
        simp only [byteLenChars_cons] at *
        omega

theorem parseStringBody_measure {cs content rest : List Char}
    (h : parseStringBody cs = some (content, rest)) :
    byteLenChars content + 1 + byteLenChars rest ≤ byteLenChars cs :=
  parseStringBodyF_measure _ _ _ _ h

/-! ## Number scanner structure lemmas -/

theorem scanDigits_split : ∀ cs : List Char, (scanDigits cs).1 ++ (scanDigits cs).2 = cs := by
  intro cs
  induction cs with
  | nil => rfl
  | cons c rest ih =>
    simp only [scanDigits]
    split_ifs with hd
    · simpa using ih
    · rfl


theorem parseFrac_split : ∀ cs f r, parseFrac cs = some (f, r) → f ++ r = cs := by
  intro cs f r h
  rw [parseFrac.eq_def] at h
  split at h
  · rename_i rest
    split_ifs at h with hemp
    simp only [Option.some.injEq, Prod.mk.injEq] at h
    obtain ⟨rfl, rfl⟩ := h
    have hsp := scanDigits_split rest
    simp only [List.cons_append]
    rw [hsp]
  · cases h
    rfl

theorem parseExp_split : ∀ cs e r, parseExp cs = some (e, r) → e ++ r = cs := by
  intro cs e r h
  rw [parseExp.eq_def] at h
  split at h
  · cases h
    rfl
  · rename_i c rest
    by_cases hce : c = 'e' ∨ c = 'E'
    · rw [if_pos hce] at h
      rcases rest with _ | ⟨s, r1⟩
      · cases h
      · simp only [] at h
        by_cases hsgn : s = '+' ∨ s = '-'
        · rw [if_pos hsgn] at h
          by_cases hemp : (scanDigits r1).1.isEmpty = true
          · rw [if_pos hemp] at h
            cases h
          · rw [if_neg hemp] at h
            simp only [Option.some.injEq, Prod.mk.injEq] at h
            obtain ⟨rfl, rfl⟩ := h
            simp only [List.cons_append]
            rw [scanDigits_split r1]
        · rw [if_neg hsgn] at h
          by_cases hemp : (scanDigits (s :: r1)).1.isEmpty = true
          · rw [if_pos hemp] at h
            cases h
          · rw [if_neg hemp] at h
            simp only [Option.some.injEq, Prod.mk.injEq] at h
            obtain ⟨rfl, rfl⟩ := h
            simp only [List.cons_append]
            rw [scanDigits_split (s :: r1)]
    · rw [if_neg hce] at h
      cases h
      rfl

theorem parseNumInt_split : ∀ cs ip r, parseNumInt cs = some (ip, r) →
    ip ++ r = cs ∧ ip ≠ [] := by
  intro cs ip r h
  rw [parseNumInt.eq_def] at h
  split at h
  · cases h
  · rename_i c rest
    by_cases h0 : c = '0'
    · rw [if_pos h0] at h
      simp only [Option.some.injEq, Prod.mk.injEq] at h
      obtain ⟨rfl, rfl⟩ := h
      subst h0
      exact ⟨rfl, by simp⟩
    · rw [if_neg h0] at h
      by_cases hd : isDigit c = true
      · rw [if_pos hd] at h
        simp only [Option.some.injEq, Prod.mk.injEq] at h
        obtain ⟨rfl, rfl⟩ := h
        refine ⟨?_, by simp⟩
        simp only [List.cons_append]
        rw [scanDigits_split rest]
      · rw [if_neg hd] at h
        cases h

theorem parseNumAfter_split : ∀ ip cs lit r, parseNumAfter ip cs = some (lit, r) →
    lit ++ r = ip ++ cs ∧ ∃ t, lit = ip ++ t := by
  intro ip cs lit r h
  unfold parseNumAfter at h
  rcases hf : parseFrac cs with _ | ⟨f, r1⟩ <;> rw [hf] at h
  · simp at h
  simp only [] at h
  rcases he : parseExp r1 with _ | ⟨e, r2⟩ <;> rw [he] at h
  · simp at h
  simp only [] at h
  simp only [Option.some.injEq, Prod.mk.injEq] at h
  obtain ⟨rfl, rfl⟩ := h
  refine ⟨?_, f ++ e, by rw [List.append_assoc]⟩
  have h1 := parseFrac_split _ _ _ hf
  have h2 := parseExp_split _ _ _ he
  rw [List.append_assoc, List.append_assoc, h2, h1]

theorem parseNumber_split : ∀ cs lit r, parseNumber cs = some (lit, r) →
    lit ++ r = cs ∧ lit ≠ [] := by
  intro cs lit r h
  rw [parseNumber.eq_def] at h
  split at h
  · rename_i rest
    rcases hi : parseNumInt rest with _ | ⟨ip, r1⟩ <;> rw [hi] at h
    · simp at h
    simp only [] at h
    rcases ha : parseNumAfter ip r1 with _ | ⟨lit1, r2⟩ <;> rw [ha] at h
    · simp at h
    simp only [] at h
    simp only [Option.some.injEq, Prod.mk.injEq] at h
    obtain ⟨rfl, rfl⟩ := h
    have h1 := (parseNumInt_split _ _ _ hi).1
    have h2 := (parseNumAfter_split _ _ _ _ ha).1
    refine ⟨?_, by simp⟩
    simp only [List.cons_append]
    rw [h2, h1]
  · rename_i hnm
    rcases hi : parseNumInt cs with _ | ⟨ip, r1⟩ <;> rw [hi] at h
    · simp at h
    simp only [] at h
    have h1 := parseNumInt_split _ _ _ hi
    have h2 := parseNumAfter_split _ _ _ _ h
    constructor
    · rw [h2.1, h1.1]
    · intro hl
      obtain ⟨t, ht⟩ := h2.2
      rw [hl] at ht
      have hnil := List.append_eq_nil.mp ht.symm
      exact h1.2 hnil.1

theorem skipWS_blc (cs : List Char) : byteLenChars (skipWS cs) ≤ byteLenChars cs :=
  byteLenChars_dropWhile jsonWS cs

theorem skipWS_cons_blc {cs r : List Char} {c : Char} (h : skipWS cs = c :: r) :
    1 + byteLenChars r ≤ byteLenChars cs := by
  have h1 := skipWS_blc cs
  rw [h, byteLenChars_cons] at h1
  have h2 := utf8Encode_pos c
  omega

theorem jsizeList_append (a : List Json) (v : Json) :
    jsizeList (a ++ [v]) = jsizeList a + jsize v := by
  induction a with
  | nil => simp [jsizeList]
  | cons x xs ih => simp [jsizeList, ih]; omega

theorem jsizeFields_insertKey (fs : List (String × Json)) (k : String) (v : Json) :
    jsizeFields (insertKey fs k v) ≤ jsizeFields fs + jsize v := by
  induction fs with
  | nil => simp [insertKey, jsizeFields]
  | cons kv fs ih =>
    rcases kv with ⟨k1, v1⟩
    by_cases hk : k1 = k
    · simp only [insertKey, if_pos hk, jsizeFields]
      omega
    · simp only [insertKey, if_neg hk, jsizeFields]
      omega

theorem parseF_measure : ∀ fuel j v rest, parseF fuel j = some (v, rest) →
    1 ≤ jsize v ∧ jsize v + byteLenChars rest ≤ jobExtra j + byteLenChars (jobCs j) := by
  intro fuel
  induction fuel with
  | zero =>
    intro j v rest h
    simp [parseF] at h
  | succ fuel ih =>
    intro j v rest h
    cases j with
    | val depth cs =>
      simp only [jobCs, jobExtra, Nat.zero_add]
      simp only [parseF] at h
      rcases hsw : skipWS cs with _ | ⟨c, rest1⟩ <;> rw [hsw] at h
      · simp at h
      simp only [] at h
      have h0 := skipWS_blc cs
      rw [hsw, byteLenChars_cons] at h0
      have hcp := utf8Encode_pos c
      by_cases hc1 : c = '{'
      · rw [if_pos hc1] at h
        by_cases hdep : maxNestingDepth < depth + 1
        · rw [if_pos hdep] at h
          cases h
        · rw [if_neg hdep] at h
          split at h
          · rename_i r2 heq
            cases h
            have h1 := skipWS_cons_blc heq
            simp only [jsize, jsizeFields]
            omega
          · rename_i x hne
            have hih := ih _ _ _ h
            simp only [jobCs, jobExtra, jsizeFields] at hih
            have h1 := skipWS_blc rest1
            exact ⟨hih.1, by omega⟩
      · rw [if_neg hc1] at h
        by_cases hc2 : c = '['
        · rw [if_pos hc2] at h
          by_cases hdep : maxNestingDepth < depth + 1
          · rw [if_pos hdep] at h
            cases h
          · rw [if_neg hdep] at h
            split at h
            · rename_i r2 heq
              cases h
              have h1 := skipWS_cons_blc heq
              simp only [jsize, jsizeList]
              omega
            · rename_i x hne
              have hih := ih _ _ _ h
              simp only [jobCs, jobExtra, jsizeList] at hih
              have h1 := skipWS_blc rest1
              exact ⟨hih.1, by omega⟩
        · rw [if_neg hc2] at h
          by_cases hc3 : c = '"'
          · rw [if_pos hc3] at h
            rcases hps : parseStringBody rest1 with _ | ⟨content, r2⟩ <;> rw [hps] at h
            · simp at h
            simp only [] at h
            cases h
            have h1 := parseStringBody_measure hps
            simp only [jsize, byteLen_mk]
            omega
          · rw [if_neg hc3] at h
            by_cases hc4 : c = 't'
            · rw [if_pos hc4] at h
              split at h
              · cases h
                simp only [byteLenChars_cons] at h0
                have e1 := utf8Encode_pos 'r'
                have e2 := utf8Encode_pos 'u'
                have e3 := utf8Encode_pos 'e'
                simp only [jsize]
                omega
              · cases h
            · rw [if_neg hc4] at h
              by_cases hc5 : c = 'f'
              · rw [if_pos hc5] at h
                split at h
                · cases h
                  simp only [byteLenChars_cons] at h0
                  have e1 := utf8Encode_pos 'a'
                  have e2 := utf8Encode_pos 'l'
                  have e3 := utf8Encode_pos 's'
                  have e4 := utf8Encode_pos 'e'
                  simp only [jsize]
                  omega
                · cases h
              · rw [if_neg hc5] at h
                by_cases hc6 : c = 'n'
                · rw [if_pos hc6] at h
                  split at h
                  · cases h
                    simp only [byteLenChars_cons] at h0
                    have e1 := utf8Encode_pos 'u'
                    have e2 := utf8Encode_pos 'l'
                    simp only [jsize]
                    omega
                  · cases h
                · rw [if_neg hc6] at h
                  by_cases hc7 : c = '-' ∨ isDigit c
                  · rw [if_pos hc7] at h
                    rcases hpn : parseNumber (c :: rest1) with _ | ⟨lit, r2⟩ <;>
                      rw [hpn] at h
                    · simp at h
                    simp only [] at h
                    by_cases hov : numOverflows lit = true
                    · rw [if_pos hov] at h
                      cases h
                    · rw [if_neg hov] at h
                      cases h
                      obtain ⟨happ, hne⟩ := parseNumber_split _ _ _ hpn
                      have hblc := congrArg byteLenChars happ
                      rw [byteLenChars_append, byteLenChars_cons] at hblc
                      have hlen := length_le_byteLenChars lit
                      have hpos : 0 < lit.length := List.length_pos.mpr hne
                      simp only [jsize, String.length]
                      omega
                  · rw [if_neg hc7] at h
                    cases h
    | members depth cs acc =>
      simp only [jobCs, jobExtra]
      simp only [parseF] at h
      split at h
      · rename_i r1 heq
        have hq := skipWS_cons_blc heq
        rcases hps : parseStringBody r1 with _ | ⟨key, r2⟩ <;> rw [hps] at h
        · simp at h
        simp only [] at h
        have hk := parseStringBody_measure hps
        split at h
        · rename_i r3 heq2
          have hq2 := skipWS_cons_blc heq2
          rcases hpv : parseF fuel (.val depth r3) with _ | ⟨v1, r4⟩ <;> rw [hpv] at h
          · simp at h
          simp only [] at h
          have hiv := ih _ _ _ hpv
          simp only [jobCs, jobExtra, Nat.zero_add] at hiv
          split at h
          · rename_i r5 heq3
            have hq3 := skipWS_cons_blc heq3
            have hih := ih _ _ _ h
            simp only [jobCs, jobExtra] at hih
            have hins := jsizeFields_insertKey acc (String.mk key) v1
            exact ⟨hih.1, by omega⟩
          · rename_i r5 heq3
            have hq3 := skipWS_cons_blc heq3
            cases h
            have hins := jsizeFields_insertKey acc (String.mk key) v1
            simp only [jsize]
            omega
          · cases h
        · cases h
      · cases h
    | elems depth cs acc =>
      simp only [jobCs, jobExtra]
      simp only [parseF] at h
      rcases hpv : parseF fuel (.val depth cs) with _ | ⟨v1, r1⟩ <;> rw [hpv] at h
      · simp at h
      simp only [] at h
      have hiv := ih _ _ _ hpv
      simp only [jobCs, jobExtra, Nat.zero_add] at hiv
      split at h
      · rename_i r2 heq
        have hq := skipWS_cons_blc heq
        have hih := ih _ _ _ h
        simp only [jobCs, jobExtra] at hih
        rw [jsizeList_append] at hih
        exact ⟨hih.1, by omega⟩
      · rename_i r2 heq
        have hq := skipWS_cons_blc heq
        cases h
        simp only [jsize]
        rw [jsizeList_append]
        omega
      · cases h

theorem goUnmarshal_jsize {cs : List Char} {v : Json} (h : goUnmarshal cs = some v) :
    1 ≤ jsize v ∧ jsize v ≤ byteLenChars cs := by
  unfold goUnmarshal at h
  rcases hp : parseF (parseFuel cs) (.val 0 cs) with _ | ⟨v1, r⟩ <;> rw [hp] at h
  · cases h
  simp only [] at h
  split_ifs at h with he
  · cases h
    have hm := parseF_measure _ _ _ _ hp
    simp only [jobCs, jobExtra, Nat.zero_add] at hm
    exact ⟨hm.1, by omega⟩

theorem decodeStr_jsize {s : String} {d : List Nat} {text : List Char} {v : Json}
    (hd : goB64Decode (strBytes s) = some d) (hu : utf8Decode d = some text)
    (hj : goUnmarshal (trimSpace text) = some v) :
    jsize v < jsize (Json.str s) := by
  have h1 := (goUnmarshal_jsize hj).2
  have h2 := byteLenChars_trimSpace text
  have h3 := utf8Decode_byteLen _ _ hu
  have h4 := goB64Decode_bound hd
  simp only [jsize, byteLen]
  omega

theorem jsize_mem_fields : ∀ fs : List (String × Json), ∀ kv ∈ fs,
    jsize kv.2 ≤ jsizeFields fs := by
  intro fs
  induction fs with
  | nil => intro kv hkv; cases hkv
  | cons a as ih =>
    intro kv hkv
    rcases List.mem_cons.mp hkv with h | h
    · subst h; simp [jsizeFields]
    · have := ih kv h
      simp [jsizeFields]
      omega

theorem jsize_mem_list : ∀ es : List Json, ∀ v ∈ es, jsize v ≤ jsizeList es := by
  intro es
  induction es with
  | nil => intro v hv; cases hv
  | cons a as ih =>
    intro v hv
    rcases List.mem_cons.mp hv with h | h
    · subst h; simp [jsizeList]
    · have := ih v h
      simp [jsizeList]
      omega

theorem decodeFieldsF_num (f : Nat) (l : String) :
    decodeFieldsF f (Json.num l) = Json.num l := by
  cases f <;> rfl

theorem decodeFieldsF_bool (f : Nat) (b : Bool) :
    decodeFieldsF f (Json.bool b) = Json.bool b := by
  cases f <;> rfl

theorem decodeFieldsF_null (f : Nat) : decodeFieldsF f Json.null = Json.null := by
  cases f <;> rfl

theorem decodeFieldsF_stable : ∀ f x, jsize x ≤ f →
    decodeFieldsF f x = decodeFieldsF (jsize x) x := by
  intro f
  induction f using Nat.strong_induction_on with
  | _ f ih =>
    intro x hx
    match f with
    | 0 =>
      have h0 : jsize x = 0 := by omega
      rw [h0]
    | f + 1 =>
      match x with
      | .num l => rw [decodeFieldsF_num, decodeFieldsF_num]
      | .bool b => rw [decodeFieldsF_bool, decodeFieldsF_bool]
      | .null => rw [decodeFieldsF_null, decodeFieldsF_null]
      | .obj fs =>
        have hs : jsize (Json.obj fs) = jsizeFields fs + 1 := by
          simp [jsize]; omega
        rw [hs]
        simp only [decodeFieldsF]
        congr 1
        apply List.map_congr_left
        intro kv hkv
        have hm := jsize_mem_fields fs kv hkv
        have hsz : jsize (Json.obj fs) = 1 + jsizeFields fs := by simp [jsize]
        rw [hsz] at hx
        rw [ih f (by omega) kv.2 (by omega),
          ih (jsizeFields fs) (by omega) kv.2 (by omega)]
      | .arr es =>
        have hs : jsize (Json.arr es) = jsizeList es + 1 := by
          simp [jsize]; omega
        rw [hs]
        simp only [decodeFieldsF]
        congr 1
        apply List.map_congr_left
        intro v hv
        have hm := jsize_mem_list es v hv
        have hsz : jsize (Json.arr es) = 1 + jsizeList es := by simp [jsize]
        rw [hsz] at hx
        rw [ih f (by omega) v (by omega),
          ih (jsizeList es) (by omega) v (by omega)]
      | .str s =>
        have hs : jsize (Json.str s) = byteLen s + 1 := by simp [jsize]
        rw [hs] at hx ⊢
        simp only [decodeFieldsF]
        by_cases hb : isBase64 s = true
        · simp only [hb, Bool.not_true, Bool.false_eq_true, if_false]
          rcases hd : goB64Decode (strBytes s) with _ | d
          · rfl
          simp only []
          rcases hu : utf8Decode d with _ | text
          · rfl
          simp only []
          rcases hj : goUnmarshal (trimSpace text) with _ | v
          · rfl
          simp only []
          have hlt := decodeStr_jsize hd hu hj
          rw [hs] at hlt
          rw [ih f (by omega) v (by omega),
            ih (byteLen s) (by omega) v (by omega)]
        · simp only [Bool.not_eq_true] at hb
          simp only [hb, Bool.not_false, if_true]

theorem decodeBase64Fields_str (s : String) :
    decodeBase64Fields (Json.str s) = decodeBase64String s := rfl

theorem decodeBase64String_eq (s : String) :
    decodeBase64String s =
      if !isBase64 s then Json.str s
      else
        match goB64Decode (strBytes s) with
        | none => Json.str s
        | some d =>
          match utf8Decode d with
          | none => Json.str s
          | some text =>
            match goUnmarshal (trimSpace text) with
            | some v => decodeBase64Fields v
            | none => Json.str (String.mk (trimSpace text)) := by
  unfold decodeBase64String
  have hs : jsize (Json.str s) = byteLen s + 1 := by simp [jsize]
  rw [hs]
  simp only [decodeFieldsF]
  by_cases hb : isBase64 s = true
  · simp only [hb, Bool.not_true, Bool.false_eq_true, if_false]
    rcases hd : goB64Decode (strBytes s) with _ | d
    · rfl
    simp only []
    rcases hu : utf8Decode d with _ | text
    · rfl
    simp only []
    rcases hj : goUnmarshal (trimSpace text) with _ | v
    · rfl
    simp only []
    have hlt := decodeStr_jsize hd hu hj
    rw [hs] at hlt
    show decodeFieldsF (byteLen s) v = decodeFieldsF (jsize v) v
    exact decodeFieldsF_stable (byteLen s) v (by omega)
  · simp only [Bool.not_eq_true] at hb
    simp only [hb, Bool.not_false, if_true]

theorem decodeBase64Fields_obj (fs : List (String × Json)) :
    decodeBase64Fields (Json.obj fs) = Json.obj (decodeBase64InMap fs) := by
  unfold decodeBase64Fields decodeBase64InMap
  have hs : jsize (Json.obj fs) = jsizeFields fs + 1 := by simp [jsize]; omega
  rw [hs]
  simp only [decodeFieldsF]
  congr 1
  apply List.map_congr_left
  intro kv hkv
  have hm := jsize_mem_fields fs kv hkv
  rw [decodeFieldsF_stable (jsizeFields fs) kv.2 hm]
  rfl

theorem decodeBase64Fields_arr (es : List Json) :
    decodeBase64Fields (Json.arr es) = Json.arr (decodeBase64InSlice es) := by
  unfold decodeBase64Fields decodeBase64InSlice
  have hs : jsize (Json.arr es) = jsizeList es + 1 := by simp [jsize]; omega
  rw [hs]
  simp only [decodeFieldsF]
  congr 1
  apply List.map_congr_left
  intro v hv
  have hm := jsize_mem_list es v hv
  rw [decodeFieldsF_stable (jsizeList es) v hm]
  rfl

theorem sameShape_refl : ∀ x, SameShape x x := by
  have key : ∀ n x, jsize x ≤ n → SameShape x x := by
    intro n
    induction n using Nat.strong_induction_on with
    | _ n ih =>
      intro x hx
      match x with
      | .str s => exact .str s (.str s)
      | .num l => exact .num l
      | .bool b => exact .bool b
      | .null => exact .null
      | .obj fs =>
        have hn : 1 + jsizeFields fs ≤ n := by simpa [jsize] using hx
        refine .obj fs fs rfl (List.forall₂_same.mpr ?_)
        intro kv hkv
        exact ih (jsizeFields fs) (by omega) kv.2 (jsize_mem_fields fs kv hkv)
      | .arr es =>
        have hn : 1 + jsizeList es ≤ n := by simpa [jsize] using hx
        refine .arr es es (List.forall₂_same.mpr ?_)
        intro v hv
        exact ih (jsizeList es) (by omega) v (jsize_mem_list es v hv)
  intro x
  exact key (jsize x) x (le_refl _)

theorem sameShape_decodeFieldsF : ∀ f x, SameShape x (decodeFieldsF f x) := by
  intro f
  induction f with
  | zero => intro x; exact sameShape_refl x
  | succ f ih =>
    intro x
    match x with
    | .str s => exact .str s _
    | .num l => rw [decodeFieldsF_num]; exact .num l
    | .bool b => rw [decodeFieldsF_bool]; exact .bool b
    | .null => rw [decodeFieldsF_null]; exact .null
    | .obj fs =>
      simp only [decodeFieldsF]
      refine .obj _ _ ?_ ?_
      · rw [List.map_map]
        exact List.map_congr_left (fun kv _ => rfl)
      · rw [List.forall₂_map_right_iff]
        exact List.forall₂_same.mpr (fun kv _ => ih kv.2)
    | .arr es =>
      simp only [decodeFieldsF]
      refine .arr _ _ ?_
      rw [List.forall₂_map_right_iff]
      exact List.forall₂_same.mpr (fun v _ => ih v)

theorem decodeBS_notb64 {s : String} (hb : isBase64 s = false) :
    decodeBase64String s = Json.str s := by
  rw [decodeBase64String_eq]
  simp [hb]

theorem decodeBS_utf8none {s : String} {d : List Nat} (hb : isBase64 s = true)
    (hd : goB64Decode (strBytes s) = some d) (hu : utf8Decode d = none) :
    decodeBase64String s = Json.str s := by
  rw [decodeBase64String_eq]
  simp only [hb, Bool.not_true, Bool.false_eq_true, if_false, hd, hu]

theorem decodeBS_textfail {s : String} {d : List Nat} {text : List Char}
    (hb : isBase64 s = true) (hd : goB64Decode (strBytes s) = some d)
    (hu : utf8Decode d = some text) (hj : goUnmarshal (trimSpace text) = none) :
    decodeBase64String s = Json.str (String.mk (trimSpace text)) := by
  rw [decodeBase64String_eq]
  simp only [hb, Bool.not_true, Bool.false_eq_true, if_false, hd, hu, hj]

theorem decodeBS_textok {s : String} {d : List Nat} {text : List Char} {v : Json}
    (hb : isBase64 s = true) (hd : goB64Decode (strBytes s) = some d)
    (hu : utf8Decode d = some text) (hj : goUnmarshal (trimSpace text) = some v) :
    decodeBase64String s = decodeBase64Fields v := by
  rw [decodeBase64String_eq]
  simp only [hb, Bool.not_true, Bool.false_eq_true, if_false, hd, hu, hj]

theorem strBytes_lt_256 (s : String) : ∀ b ∈ strBytes s, b < 256 := by
  intro b hb
  rcases List.mem_flatMap.mp hb with ⟨c, _, hc⟩
  exact utf8Encode_lt_256 c b hc

theorem flatMap_ofNat_ascii : ∀ l : List Nat, (∀ x ∈ l, x < 128) →
    (l.map Char.ofNat).flatMap utf8Encode = l := by
  intro l h
  induction l with
  | nil => rfl
  | cons x xs ih =>
    have hx : x < 128 := h x (List.mem_cons_self x xs)
    have hv : x.isValidChar := Or.inl (by omega)
    have ht : (Char.ofNat x).toNat = x := char_toNat_ofNat hv
    simp only [List.map_cons, List.flatMap_cons]
    rw [utf8Encode_ascii (by rw [ht]; omega), ht,
      ih (fun y hy => h y (List.mem_cons_of_mem x hy))]
    rfl

theorem strBytes_encStr (s : String) :
    strBytes (encStr s) = b64EncodeBytes (strBytes s) := by
  show ((b64EncodeBytes (strBytes s)).map Char.ofNat).flatMap utf8Encode = _
  exact flatMap_ofNat_ascii _ (b64EncodeBytes_lt128 (strBytes s))

theorem byteLen_encStr (s : String) :
    byteLen (encStr s) = (b64EncodeBytes (strBytes s)).length := by
  unfold byteLen
  rw [strBytes_encStr]

theorem goB64Decode_encStr (s : String) :
    goB64Decode (strBytes (encStr s)) = some (strBytes s) := by
  rw [strBytes_encStr]
  exact goB64Decode_encode (strBytes_lt_256 s)

theorem isBase64_encStr (s : String) : isBase64 (encStr s) = true := by
  unfold isBase64
  rw [goB64Decode_encStr, byteLen_encStr, b64EncodeBytes_len_mod]
  rfl

theorem utf8Decode_strBytes (s : String) : utf8Decode (strBytes s) = some s.data :=
  utf8Decode_flatMap s.data

theorem decodeBase64String_encStr (s : String) :
    decodeBase64String (encStr s) =
      match goUnmarshal (trimSpace s.data) with
      | some v => decodeBase64Fields v
      | none => Json.str (String.mk (trimSpace s.data)) := by
  rcases hj : goUnmarshal (trimSpace s.data) with _ | v
  · exact decodeBS_textfail (isBase64_encStr s) (goB64Decode_encStr s)
      (utf8Decode_strBytes s) hj
  · exact decodeBS_textok (isBase64_encStr s) (goB64Decode_encStr s)
      (utf8Decode_strBytes s) hj

/-! ## Claim theorems -/

/-- Claim C1, counterexample to the stated candidacy condition: the string
of four newlines has length a multiple of 4 but is rejected by strict
standard Base64 (newlines are not alphabet characters), yet `IsBase64`
accepts it (Go's `StdEncoding.DecodeString` skips CR/LF), and the engine
replaces it by the empty string rather than returning it unchanged. -/
theorem c1_candidate_counterexample :
    specCandidate "\n\n\n\n" = false ∧ isBase64 "\n\n\n\n" = true ∧
    decodeBase64String "\n\n\n\n" = Json.str "" ∧
    Json.str "" ≠ Json.str "\n\n\n\n" := by
  refine ⟨by decide, by rfl, by rfl, ?_⟩
  intro h
  rw [Json.str.injEq] at h
  exact absurd h (by decide)

/-- Claim C1 (amended): a string is accepted by `IsBase64` iff its byte
length is a multiple of 4 and Go's standard (non-strict) Base64 decode
succeeds; accepted strings consist solely of alphabet bytes, `=` padding
and CR/LF; strings whose length is not a multiple of 4, and more generally
all non-candidates, are returned unchanged by `DecodeBase64String`. -/
theorem c1_candidate_amended (s : String) :
    (isBase64 s = true ↔ byteLen s % 4 = 0 ∧ (goB64Decode (strBytes s)).isSome = true) ∧
    (byteLen s % 4 ≠ 0 → decodeBase64String s = Json.str s) ∧
    (isBase64 s = false → decodeBase64String s = Json.str s) ∧
    (isBase64 s = true → ∀ b ∈ strBytes s, b64AcceptedByte b = true) := by
  have hiff : isBase64 s = true ↔
      byteLen s % 4 = 0 ∧ (goB64Decode (strBytes s)).isSome = true := by
    unfold isBase64
    rw [Bool.and_eq_true, beq_iff_eq]
  refine ⟨hiff, ?_, ?_, ?_⟩
  · intro hm
    cases hb : isBase64 s with
    | false => exact decodeBS_notb64 hb
    | true => exact absurd (hiff.mp hb).1 hm
  · intro hb
    exact decodeBS_notb64 hb
  · intro hb b hbmem
    rcases Option.isSome_iff_exists.mp (hiff.mp hb).2 with ⟨d, hd⟩
    exact goB64Decode_accepted hd b hbmem

/-- Witness for the amended C1 at the non-candidate `"abc"` and the
candidate `"QQ=="`. -/
theorem c1_candidate_amended_witness :
    decodeBase64String "abc" = Json.str "abc" ∧
    (∀ b ∈ strBytes "QQ==", b64AcceptedByte b = true) :=
  ⟨(c1_candidate_amended "abc").2.1 (by decide),
   (c1_candidate_amended "QQ==").2.2.2 (by rfl)⟩

/-- Claim C2, counterexample: two Base64 layers around `{"a":1}` do NOT
fully resolve — the decoded text of the outer layer is the inner Base64
string `"eyJhIjoxfQ=="`, which is not valid JSON, so the engine returns it
as plain text instead of recursing into it. -/
theorem c2_multilayer_counterexample :
    encStr "\x7b\"a\":1\x7d" = "eyJhIjoxfQ==" ∧
    decodeBase64String (encStr (encStr "\x7b\"a\":1\x7d")) = Json.str "eyJhIjoxfQ==" ∧
    Json.str "eyJhIjoxfQ==" ≠ Json.obj [("a", Json.num "1")] :=
  ⟨by rfl, by rfl, fun h => Json.noConfusion h⟩

/-- Claim C2 (amended): one Base64 layer around `{"a":1}` resolves to the
object, but a second layer yields the inner Base64 text as a plain string
(a bare Base64 token is not valid JSON, so the recursion stops). -/
theorem c2_multilayer_amended :
    decodeBase64String (encStr "\x7b\"a\":1\x7d") = Json.obj [("a", Json.num "1")] ∧
    decodeBase64String (encStr (encStr "\x7b\"a\":1\x7d")) =
      Json.str (encStr "\x7b\"a\":1\x7d") :=
  ⟨by rfl, by rfl⟩

/-- Claim C4: the output of the engine is structurally isomorphic to the
input at every object/array node — key lists, array lengths and order are
preserved, scalar leaves unchanged, and only string leaves may become a
different value. -/
theorem c4_shape_preservation (x : Json) : SameShape x (decodeBase64Fields x) :=
  sameShape_decodeFieldsF (jsize x) x

/-- Claim C5: a Base64 candidate whose decoded bytes are not valid UTF-8
is returned unchanged. -/
theorem c5_binary_safety (s : String) (d : List Nat) (hb : isBase64 s = true)
    (hd : goB64Decode (strBytes s) = some d) (hu : utf8Decode d = none) :
    decodeBase64String s = Json.str s :=
  decodeBS_utf8none hb hd hu

/-- Witness for C5 at `"/w=="`, the Base64 encoding of the single byte
`0xFF`, which is not valid UTF-8. -/
theorem c5_binary_safety_witness :
    isBase64 "/w==" = true ∧ goB64Decode (strBytes "/w==") = some [255] ∧
    utf8Decode [255] = none ∧ decodeBase64String "/w==" = Json.str "/w==" :=
  ⟨by rfl, by rfl, by rfl, c5_binary_safety "/w==" [255] (by rfl) (by rfl) (by rfl)⟩

/-- Claim C6: a Base64 candidate whose decoded bytes are valid UTF-8 text
that (after trimming) fails to parse as JSON is replaced by the decoded,
trimmed plain text. -/
theorem c6_nonjson_text (s : String) (d : List Nat) (text : List Char)
    (hb : isBase64 s = true) (hd : goB64Decode (strBytes s) = some d)
    (hu : utf8Decode d = some text) (hj : goUnmarshal (trimSpace text) = none) :
    decodeBase64String s = Json.str (String.mk (trimSpace text)) :=
  decodeBS_textfail hb hd hu hj

/-- Witness for C6 at `"aGVsbG8="`, the Base64 encoding of `"hello"`. -/
theorem c6_nonjson_text_witness :
    isBase64 "aGVsbG8=" = true ∧
    goB64Decode (strBytes "aGVsbG8=") = some [104, 101, 108, 108, 111] ∧
    utf8Decode [104, 101, 108, 108, 111] = some ['h', 'e', 'l', 'l', 'o'] ∧
    goUnmarshal (trimSpace ['h', 'e', 'l', 'l', 'o']) = none ∧
    decodeBase64String "aGVsbG8=" = Json.str (String.mk (trimSpace ['h', 'e', 'l', 'l', 'o'])) :=
  ⟨by rfl, by rfl, by rfl, by rfl,
   c6_nonjson_text "aGVsbG8=" [104, 101, 108, 108, 111] ['h', 'e', 'l', 'l', 'o']
     (by rfl) (by rfl) (by rfl) (by rfl)⟩

/-- Claim C7: the engine is total with no error channel — every string
lands in exactly one of the four return cases, and all ambiguous or
malformed inputs (non-candidates, non-UTF-8 payloads) pass through as the
original string. -/
theorem c7_totality (s : String) :
    (isBase64 s = false ∧ decodeBase64String s = Json.str s) ∨
    (∃ d, goB64Decode (strBytes s) = some d ∧ utf8Decode d = none ∧
      decodeBase64String s = Json.str s) ∨
    (∃ d text, goB64Decode (strBytes s) = some d ∧ utf8Decode d = some text ∧
      goUnmarshal (trimSpace text) = none ∧
      decodeBase64String s = Json.str (String.mk (trimSpace text))) ∨
    (∃ d text v, goB64Decode (strBytes s) = some d ∧ utf8Decode d = some text ∧
      goUnmarshal (trimSpace text) = some v ∧
      decodeBase64String s = decodeBase64Fields v) := by
  cases hb : isBase64 s with
  | false => exact Or.inl ⟨rfl, decodeBS_notb64 hb⟩
  | true =>
    have hsome : (goB64Decode (strBytes s)).isSome = true := by
      unfold isBase64 at hb
      rw [Bool.and_eq_true] at hb
      exact hb.2
    rcases Option.isSome_iff_exists.mp hsome with ⟨d, hd⟩
    rcases hu : utf8Decode d with _ | text
    · exact Or.inr (Or.inl ⟨d, hd, hu, decodeBS_utf8none hb hd hu⟩)
    rcases hj : goUnmarshal (trimSpace text) with _ | v
    · exact Or.inr (Or.inr (Or.inl ⟨d, text, hd, hu, hj, decodeBS_textfail hb hd hu hj⟩))
    · exact Or.inr (Or.inr (Or.inr ⟨d, text, v, hd, hu, hj, decodeBS_textok hb hd hu hj⟩))

/-- Claim C8: number, boolean and null leaves are returned exactly
unchanged. -/
theorem c8_scalar_identity :
    (∀ l : String, decodeBase64Fields (Json.num l) = Json.num l) ∧
    (∀ b : Bool, decodeBase64Fields (Json.bool b) = Json.bool b) ∧
    decodeBase64Fields Json.null = Json.null :=
  ⟨fun l => decodeFieldsF_num _ l, fun b => decodeFieldsF_bool _ b, decodeFieldsF_null _⟩

/-- Claim C9: the decode recursion terminates — fuel `jsize x` is a fixed
point of the fueled embedding (so the recursion is well-founded with
measure `jsize`), each successful decode-reparse step strictly decreases
the measure, and a Base64 string decodes to at most three quarters of its
length. -/
theorem c9_termination :
    (∀ f x, jsize x ≤ f → decodeFieldsF f x = decodeBase64Fields x) ∧
    (∀ s d text v, goB64Decode (strBytes s) = some d → utf8Decode d = some text →
      goUnmarshal (trimSpace text) = some v → jsize v < jsize (Json.str s)) ∧
    (∀ bs d, goB64Decode bs = some d → 4 * d.length ≤ 3 * bs.length) := by
  refine ⟨?_, ?_, ?_⟩
  · intro f x hx
    exact decodeFieldsF_stable f x hx
  · intro s d text v hd hu hj
    exact decodeStr_jsize hd hu hj
  · intro bs d h
    exact goB64Decode_bound h

/-- Witness for C9: extra fuel does not change the result on `null`; the
decode of `"dHJ1ZQ=="` (Base64 of `"true"`) shrinks the measure; the empty
decode satisfies the length bound. -/
theorem c9_termination_witness :
    decodeFieldsF 2 Json.null = decodeBase64Fields Json.null ∧
    jsize (Json.bool true) < jsize (Json.str "dHJ1ZQ==") ∧
    4 * ([] : List Nat).length ≤ 3 * ([] : List Nat).length :=
  ⟨c9_termination.1 2 Json.null (by decide),
   c9_termination.2.1 "dHJ1ZQ==" [116, 114, 117, 101] ['t', 'r', 'u', 'e'] (Json.bool true)
     (by rfl) (by rfl) (by rfl),
   c9_termination.2.2 [] [] (by rfl)⟩

/-- Claim C10: the empty string is a Base64 candidate (length 0, empty
decode), its decoded bytes are trivially valid UTF-8, the trimmed text is
empty and not valid JSON, so the engine returns the empty string. -/
theorem c10_empty_string : decodeBase64String "" = Json.str "" := rfl

theorem skipWS_cons_nonws {c : Char} (t : List Char) (h : jsonWS c = false) :
    skipWS (c :: t) = c :: t := by
  simp [skipWS, List.dropWhile_cons, h]

theorem parseF_deepFail : ∀ fuel n depth r, 1 ≤ n → 10000 < depth + n →
    parseF fuel (.val depth (List.replicate n '[' ++ 'n' :: 'u' :: 'l' :: 'l' :: r)) = none := by
  intro fuel
  induction fuel using Nat.strong_induction_on with
  | _ fuel ih =>
    intro n depth r hn hd
    match fuel with
    | 0 => rfl
    | fuel + 1 =>
      match n, hn with
      | m + 1, _ =>
        simp only [List.replicate_succ, List.cons_append]
        simp only [parseF]
        rw [skipWS_cons_nonws _ (by decide)]
        simp only []
        simp only [reduceIte]
        have hbrace : ¬('[' : Char) = '{' := by decide
        rw [if_neg hbrace]
        by_cases hdep : maxNestingDepth < depth + 1
        · rw [if_pos hdep]
        · rw [if_neg hdep]
          have hm : 1 ≤ m := by
            simp only [maxNestingDepth] at hdep
            omega
          match m, hm with
          | m' + 1, _ =>
            simp only [List.replicate_succ, List.cons_append]
            rw [skipWS_cons_nonws _ (by decide)]
            split
            · rename_i r2 heq
              exact absurd (List.head_eq_of_cons_eq heq) (by decide)
            · match fuel with
              | 0 => rfl
              | g + 1 =>
                simp only [parseF]
                have hih := ih g (by omega) (m' + 1) (depth + 1) r (by omega) (by omega)
                simp only [List.replicate_succ, List.cons_append] at hih
                rw [hih]

theorem marshal_deep_succ (n : Nat) :
    marshal (deep (n + 1)) = '[' :: (marshal (deep n) ++ [']']) := by
  show marshal (.arr [deep n]) = _
  simp only [marshal, marshalElems]
  rw [List.cons_append]

theorem marshal_deep : ∀ n, marshal (deep n) =
    List.replicate n '[' ++ 'n' :: 'u' :: 'l' :: 'l' :: List.replicate n ']' := by
  intro n
  induction n with
  | zero => rfl
  | succ n ih =>
    rw [marshal_deep_succ, ih]
    simp only [List.replicate_succ, List.cons_append, List.append_assoc]
    rw [← List.replicate_succ', List.replicate_succ]

theorem decodeFieldsF_deep : ∀ f n, decodeFieldsF f (deep n) = deep n := by
  intro f
  induction f with
  | zero => intro n; rfl
  | succ f ih =>
    intro n
    match n with
    | 0 => rfl
    | n + 1 =>
      show decodeFieldsF (f + 1) (.arr [deep n]) = .arr [deep n]
      simp only [decodeFieldsF, List.map_cons, List.map_nil, ih]

theorem trimSpace_deepMarshal (n : Nat) :
    trimSpace (marshal (deep (n + 1))) = marshal (deep (n + 1)) := by
  rw [marshal_deep_succ]
  apply trimSpace_eq_self
  · intro c hc
    simp only [List.head?_cons, Option.some.injEq] at hc
    subst hc
    decide
  · intro c hc
    rw [show '[' :: (marshal (deep n) ++ [']']) =
      ('[' :: marshal (deep n)) ++ [']'] from rfl] at hc
    rw [List.getLast?_concat] at hc
    rw [Option.some.injEq] at hc
    subst hc
    decide

theorem goUnmarshal_none {cs : List Char}
    (h : parseF (parseFuel cs) (.val 0 cs) = none) : goUnmarshal cs = none := by
  unfold goUnmarshal
  rw [h]

theorem goUnmarshal_deep10001 : goUnmarshal (marshal (deep 10001)) = none := by
  apply goUnmarshal_none
  rw [marshal_deep 10001]
  exact parseF_deepFail _ 10001 0 _ (by omega) (by omega)

/-- Claim C3, counterexample: for the value `deep 10001` (10001 nested
singleton arrays), the serialized form nests past Go's scanner depth limit
of 10000, so re-parsing the Base64-decoded text fails and `Decode` returns
the serialized text as a plain string, while `Decode` of the value itself
is the value — the two results differ. -/
theorem c3_roundtrip_counterexample :
    decodeBase64String (encStr (jsonStringify (deep 10001))) =
      Json.str (jsonStringify (deep 10001)) ∧
    decodeBase64Fields (deep 10001) = deep 10001 ∧
    Json.str (jsonStringify (deep 10001)) ≠ decodeBase64Fields (deep 10001) := by
  have hdec : decodeBase64Fields (deep 10001) = deep 10001 := decodeFieldsF_deep _ _
  have hts : trimSpace (jsonStringify (deep 10001)).data =
      (jsonStringify (deep 10001)).data := by
    show trimSpace (marshal (deep 10001)) = marshal (deep 10001)
    exact trimSpace_deepMarshal 10000
  have hj : goUnmarshal (trimSpace (jsonStringify (deep 10001)).data) = none := by
    rw [hts]
    show goUnmarshal (marshal (deep 10001)) = none
    exact goUnmarshal_deep10001
  have h1 : decodeBase64String (encStr (jsonStringify (deep 10001))) =
      Json.str (String.mk (trimSpace (jsonStringify (deep 10001)).data)) :=
    decodeBS_textfail (isBase64_encStr _) (goB64Decode_encStr _) (utf8Decode_strBytes _) hj
  refine ⟨?_, hdec, ?_⟩
  · rw [h1, hts]
  · rw [hdec]
    intro hcontra
    have hd : deep 10001 = Json.arr [deep 10000] := rfl
    rw [hd] at hcontra
    exact Json.noConfusion hcontra

theorem isDigit_toNat {c : Char} (h : isDigit c = true) : 48 ≤ c.toNat ∧ c.toNat ≤ 57 := by
  unfold isDigit at h
  rw [Bool.and_eq_true, decide_eq_true_eq, decide_eq_true_eq] at h
  exact ⟨h.1, h.2⟩

theorem jsonWS_of_digit {c : Char} (h : isDigit c = true) : jsonWS c = false := by
  obtain ⟨h1, h2⟩ := isDigit_toNat h
  unfold jsonWS
  have w1 : (c == ' ') = false := by
    rw [beq_eq_false_iff_ne]
    intro he
    have h3 : c.toNat = 32 := by subst he; rfl
    omega
  have w2 : (c == '\t') = false := by
    rw [beq_eq_false_iff_ne]
    intro he
    have h3 : c.toNat = 9 := by subst he; rfl
    omega
  have w3 : (c == '\n') = false := by
    rw [beq_eq_false_iff_ne]
    intro he
    have h3 : c.toNat = 10 := by subst he; rfl
    omega
  have w4 : (c == '\r') = false := by
    rw [beq_eq_false_iff_ne]
    intro he
    have h3 : c.toNat = 13 := by subst he; rfl
    omega
  rw [w1, w2, w3, w4]
  rfl

theorem goIsSpace_of_digit {c : Char} (h : isDigit c = true) : goIsSpace c = false := by
  obtain ⟨h1, h2⟩ := isDigit_toNat h
  unfold goIsSpace
  simp only [Bool.or_eq_false_iff, beq_eq_false_iff_ne, ne_eq, Bool.and_eq_false_iff,
    decide_eq_false_iff_not, not_le]
  omega

theorem numStop_not_digit {r : List Char} (h : numStop r) :
    ∀ c t, r = c :: t → isDigit c = false := by
  intro c t hr
  subst hr
  rcases h with h | h | h <;> subst h <;> decide

theorem scanDigits_cons_digit {c : Char} (rest : List Char) (h : isDigit c = true) :
    scanDigits (c :: rest) = (c :: (scanDigits rest).1, (scanDigits rest).2) := by
  simp [scanDigits, h]

theorem scanDigits_cons_nondigit {c : Char} (rest : List Char) (h : isDigit c = false) :
    scanDigits (c :: rest) = ([], c :: rest) := by
  simp [scanDigits, h]

theorem scanDigits_ext : ∀ cs r, ((scanDigits cs).2 = [] →
    ∀ c t, r = c :: t → isDigit c = false) →
    scanDigits (cs ++ r) = ((scanDigits cs).1, (scanDigits cs).2 ++ r) := by
  intro cs
  induction cs with
  | nil =>
    intro r h
    rcases r with _ | ⟨c, t⟩
    · rfl
    · have hc := h rfl c t rfl
      simp [scanDigits, hc]
  | cons c cs ih =>
    intro r h
    by_cases hc : isDigit c = true
    · rw [List.cons_append]
      simp only [scanDigits_cons_digit _ hc]
      rw [ih r ?hcond]
      case hcond =>
        intro ht
        apply h
        rw [scanDigits_cons_digit _ hc]
        exact ht
    · have hc' : isDigit c = false := by simpa using hc
      rw [List.cons_append]
      simp only [scanDigits_cons_nondigit _ hc', List.cons_append]

theorem parseFrac_ext : ∀ cs f t r, parseFrac cs = some (f, t) → (t = [] → numStop r) →
    parseFrac (cs ++ r) = some (f, t ++ r) := by
  intro cs f t r h hstop
  rw [parseFrac.eq_def] at h
  split at h
  · rename_i r1
    split_ifs at h with hemp
    rw [Option.some.injEq, Prod.mk.injEq] at h
    obtain ⟨hf, ht⟩ := h
    subst hf
    subst ht
    have hsd := scanDigits_ext r1 r (fun h2 c2 t2 hr =>
      numStop_not_digit (hstop h2) c2 t2 hr)
    rw [List.cons_append, parseFrac.eq_def]
    simp [hsd, hemp]
  · rename_i hne
    rw [Option.some.injEq, Prod.mk.injEq] at h
    obtain ⟨hf, ht⟩ := h
    subst hf
    subst ht
    rcases cs with _ | ⟨c, cs'⟩
    · simp only [List.nil_append]
      have hst := hstop rfl
      rcases r with _ | ⟨c, t'⟩
      · rfl
      · rcases hst with h1 | h1 | h1 <;> subst h1 <;> rfl
    · have hcne : c ≠ '.' := by
        intro he
        exact hne cs' (by rw [he])
      rw [List.cons_append, parseFrac.eq_def]
      split
      · rename_i r1 heq
        injection heq with hh _
        exact absurd hh hcne
      · rfl

theorem parseExp_ext : ∀ cs e t r, parseExp cs = some (e, t) → (t = [] → numStop r) →
    parseExp (cs ++ r) = some (e, t ++ r) := by
  intro cs e t r h hstop
  rw [parseExp.eq_def] at h
  split at h
  · cases h
    simp only [List.nil_append]
    have hst := hstop rfl
    rcases r with _ | ⟨c, t'⟩
    · rfl
    · rcases hst with h1 | h1 | h1 <;> subst h1 <;> rfl
  · rename_i c rest
    by_cases hce : c = 'e' ∨ c = 'E'
    · rw [if_pos hce] at h
      rcases rest with _ | ⟨s, r1⟩
      · cases h
      · simp only [] at h
        by_cases hsgn : s = '+' ∨ s = '-'
        · rw [if_pos hsgn] at h
          by_cases hemp : (scanDigits r1).1.isEmpty = true
          · rw [if_pos hemp] at h
            cases h
          · rw [if_neg hemp] at h
            rw [Option.some.injEq, Prod.mk.injEq] at h
            obtain ⟨he, ht⟩ := h
            subst he
            subst ht
            have hsd := scanDigits_ext r1 r (fun h2 c2 t2 hr =>
              numStop_not_digit (hstop h2) c2 t2 hr)
            rw [List.cons_append, List.cons_append, parseExp.eq_def]
            simp only []
            rw [if_pos hce]
            simp only [hsd]
            rw [if_pos hsgn, if_neg hemp]
        · rw [if_neg hsgn] at h
          by_cases hemp : (scanDigits (s :: r1)).1.isEmpty = true
          · rw [if_pos hemp] at h
            cases h
          · rw [if_neg hemp] at h
            rw [Option.some.injEq, Prod.mk.injEq] at h
            obtain ⟨he, ht⟩ := h
            subst he
            subst ht
            have hsd := scanDigits_ext (s :: r1) r (fun h2 c2 t2 hr =>
              numStop_not_digit (hstop h2) c2 t2 hr)
            rw [List.cons_append] at hsd
            rw [List.cons_append, List.cons_append, parseExp.eq_def]
            simp only []
            rw [if_pos hce]
            simp only [hsd]
            rw [if_neg hsgn, if_neg hemp]
    · rw [if_neg hce] at h
      cases h
      rw [List.cons_append, parseExp.eq_def]
      simp only []
      rw [if_neg hce]

theorem parseNumInt_ext : ∀ cs ip t r, parseNumInt cs = some (ip, t) → (t = [] → numStop r) →
    parseNumInt (cs ++ r) = some (ip, t ++ r) := by
  intro cs ip t r h hstop
  rw [parseNumInt.eq_def] at h
  split at h
  · cases h
  · rename_i c rest
    by_cases h0 : c = '0'
    · rw [if_pos h0] at h
      rw [Option.some.injEq, Prod.mk.injEq] at h
      obtain ⟨hip, ht⟩ := h
      subst hip
      subst ht
      rw [List.cons_append, parseNumInt.eq_def]
      simp only []
      rw [if_pos h0]
    · rw [if_neg h0] at h
      by_cases hd : isDigit c = true
      · rw [if_pos hd] at h
        rw [Option.some.injEq, Prod.mk.injEq] at h
        obtain ⟨hip, ht⟩ := h
        subst hip
        subst ht
        have hsd := scanDigits_ext rest r (fun h2 c2 t2 hr =>
          numStop_not_digit (hstop h2) c2 t2 hr)
        rw [List.cons_append, parseNumInt.eq_def]
        simp only []
        rw [if_neg h0, if_pos hd]
        simp only [hsd]
      · rw [if_neg hd] at h
        cases h

theorem parseNumAfter_ext : ∀ ip cs lit t r, parseNumAfter ip cs = some (lit, t) →
    (t = [] → numStop r) → parseNumAfter ip (cs ++ r) = some (lit, t ++ r) := by
  intro ip cs lit t r h hstop
  unfold parseNumAfter at h ⊢
  rcases hf : parseFrac cs with _ | ⟨f, r1⟩ <;> rw [hf] at h
  · cases h
  simp only [] at h
  rcases he : parseExp r1 with _ | ⟨e, r2⟩ <;> rw [he] at h
  · cases h
  simp only [] at h
  rw [Option.some.injEq, Prod.mk.injEq] at h
  obtain ⟨hl, ht⟩ := h
  subst hl
  subst ht
  have he' := parseExp_ext r1 e r2 r he hstop
  have hf' := parseFrac_ext cs f r1 r hf ?c1
  case c1 =>
    intro h1
    subst h1
    rw [show parseExp [] = some ([], []) from rfl] at he
    rw [Option.some.injEq, Prod.mk.injEq] at he
    exact hstop he.2.symm
  rw [hf']
  simp only []
  rw [he']

theorem parseNumber_ext : ∀ cs lit t r, parseNumber cs = some (lit, t) →
    (t = [] → numStop r) → parseNumber (cs ++ r) = some (lit, t ++ r) := by
  intro cs lit t r h hstop
  rw [parseNumber.eq_def] at h
  split at h
  · rename_i rest
    rcases hi : parseNumInt rest with _ | ⟨ip, r1⟩ <;> rw [hi] at h
    · cases h
    simp only [] at h
    rcases ha : parseNumAfter ip r1 with _ | ⟨lit1, r2⟩ <;> rw [ha] at h
    · cases h
    simp only [] at h
    rw [Option.some.injEq, Prod.mk.injEq] at h
    obtain ⟨hl, ht⟩ := h
    subst hl
    subst ht
    have ha' := parseNumAfter_ext ip r1 lit1 r2 r ha hstop
    have hi' := parseNumInt_ext rest ip r1 r hi ?c1
    case c1 =>
      intro h1
      subst h1
      rw [show parseNumAfter ip [] = some (ip ++ [] ++ [], []) from rfl] at ha
      rw [Option.some.injEq, Prod.mk.injEq] at ha
      exact hstop ha.2.symm
    rw [List.cons_append, parseNumber.eq_def]
    simp only []
    rw [hi']
    simp only []
    rw [ha']
  · rename_i hne
    rcases hi : parseNumInt cs with _ | ⟨ip, r1⟩ <;> rw [hi] at h
    · cases h
    simp only [] at h
    have ha' := parseNumAfter_ext ip r1 lit t r h hstop
    have hi' := parseNumInt_ext cs ip r1 r hi ?c2
    case c2 =>
      intro h1
      subst h1
      rw [show parseNumAfter ip [] = some (ip ++ [] ++ [], []) from rfl] at h
      rw [Option.some.injEq, Prod.mk.injEq] at h
      exact hstop h.2.symm
    rcases cs with _ | ⟨c, cs'⟩
    · rw [parseNumInt.eq_def] at hi
      cases hi
    have hcne : c ≠ '-' := by
      intro he
      exact hne cs' (by rw [he])
    rw [List.cons_append] at hi' ⊢
    rw [parseNumber.eq_def]
    split
    · rename_i r2 heq
      injection heq with hh _
      exact absurd hh hcne
    · rw [hi']
      simp only []
      rw [ha']

theorem parseNumber_head : ∀ c cs p, parseNumber (c :: cs) = some p →
    c = '-' ∨ isDigit c = true := by
  intro c cs p h
  by_cases hc : c = '-'
  · exact Or.inl hc
  right
  rw [parseNumber.eq_def] at h
  split at h
  · rename_i rest heq
    injection heq with hh _
    exact absurd hh hc
  · rcases hi : parseNumInt (c :: cs) with _ | ⟨ip, r1⟩ <;> rw [hi] at h
    · cases h
    rw [parseNumInt.eq_def] at hi
    simp only [] at hi
    by_cases h0 : c = '0'
    · subst h0
      decide
    · rw [if_neg h0] at hi
      by_cases hd : isDigit c = true
      · exact hd
      · rw [if_neg hd] at hi
        cases hi

theorem char_ofNat_toNat (c : Char) : Char.ofNat c.toNat = c := by
  apply char_eq_of_toNat
  apply char_toNat_ofNat
  rcases char_valid c with h | h
  · exact Or.inl h
  · exact Or.inr ⟨by omega, h.2⟩

theorem hexVal_hexDigit : ∀ n, n < 16 → hexVal (hexDigit n) = some n := by
  decide

theorem getu4_cons {d1 d2 d3 d4 : Char} (rest : List Char) {a1 a2 a3 a4 : Nat}
    (h1 : hexVal d1 = some a1) (h2 : hexVal d2 = some a2)
    (h3 : hexVal d3 = some a3) (h4 : hexVal d4 = some a4) :
    getu4 ('\\' :: 'u' :: d1 :: d2 :: d3 :: d4 :: rest) =
      some (((a1 * 16 + a2) * 16 + a3) * 16 + a4, rest) := by
  simp only [getu4, h1, h2, h3, h4]

theorem strStep_escape (c : Char) (r : List Char) :
    strStep (escapeChar c ++ r) = some (c, r) := by
  by_cases h1 : c = '"'
  · subst h1
    rfl
  by_cases h2 : c = '\\'
  · subst h2
    rfl
  by_cases h3 : c = '\n'
  · subst h3
    rfl
  by_cases h4 : c = '\r'
  · subst h4
    rfl
  by_cases h5 : c = '\t'
  · subst h5
    rfl
  by_cases h6 : c.toNat < 0x20 ∨ c = '<' ∨ c = '>' ∨ c = '&'
  · rw [escapeChar, if_neg h1, if_neg h2, if_neg h3, if_neg h4, if_neg h5, if_pos h6]
    have hn10 : c.toNat ≠ 10 := fun he => h3 (char_eq_of_toNat he)
    have hn13 : c.toNat ≠ 13 := fun he => h4 (char_eq_of_toNat he)
    have hn9 : c.toNat ≠ 9 := fun he => h5 (char_eq_of_toNat he)
    have hlt : c.toNat < 256 := by
      rcases h6 with h | h | h | h
      · omega
      · rw [h]
        decide
      · rw [h]
        decide
      · rw [h]
        decide
    have hhi : c.toNat / 16 < 16 := by omega
    have hlo : c.toNat % 16 < 16 := by omega
    show strStep ('\\' :: 'u' :: '0' :: '0' ::
      hexDigit (c.toNat / 16) :: hexDigit (c.toNat % 16) :: r) = some (c, r)
    rw [strStep.eq_def]
    simp only [Char.reduceEq, reduceIte]
    rw [getu4_cons r (show hexVal '0' = some 0 by rfl) (show hexVal '0' = some 0 by rfl)
      (hexVal_hexDigit _ hhi) (hexVal_hexDigit _ hlo)]
    simp only []
    have hval : ((0 * 16 + 0) * 16 + c.toNat / 16) * 16 + c.toNat % 16 = c.toNat := by
      omega
    rw [hval]
    have hs1 : ¬(0xD800 ≤ c.toNat ∧ c.toNat ≤ 0xDBFF) := by
      rcases h6 with h | h | h | h
      · omega
      · rw [h]
        decide
      · rw [h]
        decide
      · rw [h]
        decide
    have hs2 : ¬(0xDC00 ≤ c.toNat ∧ c.toNat ≤ 0xDFFF) := by
      rcases h6 with h | h | h | h
      · omega
      · rw [h]
        decide
      · rw [h]
        decide
      · rw [h]
        decide
    rw [if_neg hs1, if_neg hs2, char_ofNat_toNat]
  by_cases h7 : c.toNat = 0x2028 ∨ c.toNat = 0x2029
  · rw [escapeChar, if_neg h1, if_neg h2, if_neg h3, if_neg h4, if_neg h5, if_neg h6,
      if_pos h7]
    have hlo : c.toNat % 16 < 16 := by omega
    show strStep ('\\' :: 'u' :: '2' :: '0' :: '2' ::
      hexDigit (c.toNat % 16) :: r) = some (c, r)
    rw [strStep.eq_def]
    simp only [Char.reduceEq, reduceIte]
    rw [getu4_cons r (show hexVal '2' = some 2 by rfl) (show hexVal '0' = some 0 by rfl)
      (show hexVal '2' = some 2 by rfl) (hexVal_hexDigit _ hlo)]
    simp only []
    have hval : ((2 * 16 + 0) * 16 + 2) * 16 + c.toNat % 16 = c.toNat := by
      rcases h7 with h | h <;> omega
    rw [hval]
    have hs1 : ¬(0xD800 ≤ c.toNat ∧ c.toNat ≤ 0xDBFF) := by
      rcases h7 with h | h <;> omega
    have hs2 : ¬(0xDC00 ≤ c.toNat ∧ c.toNat ≤ 0xDFFF) := by
      rcases h7 with h | h <;> omega
    rw [if_neg hs1, if_neg hs2, char_ofNat_toNat]
  · rw [escapeChar, if_neg h1, if_neg h2, if_neg h3, if_neg h4, if_neg h5, if_neg h6,
      if_neg h7]
    show strStep (c :: r) = some (c, r)
    rw [strStep.eq_def]
    simp only []
    rw [if_neg h2, if_neg (by omega : ¬c.toNat < 0x20)]

theorem escapeChar_head (c : Char) : ∃ e0 et, escapeChar c = e0 :: et ∧ e0 ≠ '"' := by
  unfold escapeChar
  split_ifs with h1 h2 h3 h4 h5 h6 h7
  · exact ⟨'\\', _, rfl, by decide⟩
  · exact ⟨'\\', _, rfl, by decide⟩
  · exact ⟨'\\', _, rfl, by decide⟩
  · exact ⟨'\\', _, rfl, by decide⟩
  · exact ⟨'\\', _, rfl, by decide⟩
  · exact ⟨'\\', _, rfl, by decide⟩
  · exact ⟨'\\', _, rfl, by decide⟩
  · exact ⟨c, [], rfl, h1⟩

theorem length_le_flatMap_escape : ∀ cs : List Char,
    cs.length ≤ (cs.flatMap escapeChar).length := by
  intro cs
  induction cs with
  | nil => simp
  | cons c cs ih =>
    obtain ⟨e0, et, he, _⟩ := escapeChar_head c
    simp only [List.flatMap_cons, List.length_append, he, List.length_cons]
    omega

theorem parseStringBodyF_escape : ∀ fuel cs r, cs.length < fuel →
    parseStringBodyF fuel (cs.flatMap escapeChar ++ '"' :: r) = some (cs, r) := by
  intro fuel
  induction fuel with
  | zero =>
    intro cs r h
    omega
  | succ fuel ih =>
    intro cs r h
    rcases cs with _ | ⟨c, cs'⟩
    · simp only [List.flatMap_nil, List.nil_append]
      simp [parseStringBodyF]
    · simp only [List.flatMap_cons, List.append_assoc]
      obtain ⟨e0, et, he, hne⟩ := escapeChar_head c
      rw [he, List.cons_append]
      simp only [parseStringBodyF]
      rw [if_neg hne]
      have hs : strStep (e0 :: (et ++ (cs'.flatMap escapeChar ++ '"' :: r))) =
          some (c, cs'.flatMap escapeChar ++ '"' :: r) := by
        rw [← List.cons_append, ← he]
        exact strStep_escape c _
      rw [hs]
      simp only []
      rw [ih cs' r (by simp only [List.length_cons] at h; omega)]
      rfl

theorem parseStringBody_escape (cs : List Char) (r : List Char) :
    parseStringBody (cs.flatMap escapeChar ++ '"' :: r) = some (cs, r) := by
  unfold parseStringBody
  apply parseStringBodyF_escape
  have h1 := length_le_flatMap_escape cs
  simp only [List.length_append, List.length_cons]
  omega

theorem bytesLt_irrefl : ∀ l, bytesLt l l = false := by
  intro l
  induction l with
  | nil => rfl
  | cons a as ih => simp [bytesLt, ih]

theorem bytesLt_trans : ∀ a b c, bytesLt a b = true → bytesLt b c = true →
    bytesLt a c = true := by
  intro a
  induction a with
  | nil =>
    intro b c h1 h2
    rcases b with _ | ⟨x, xs⟩
    · cases h1
    rcases c with _ | ⟨y, ys⟩
    · cases h2
    · rfl
  | cons p ps ih =>
    intro b c h1 h2
    rcases b with _ | ⟨x, xs⟩
    · cases h1
    rcases c with _ | ⟨y, ys⟩
    · cases h2
    simp only [bytesLt] at h1 h2 ⊢
    by_cases hpx : p < x
    · rw [if_pos hpx] at h1
      by_cases hxy : x < y
      · rw [if_pos (by omega : p < y)]
      · rw [if_neg hxy] at h2
        by_cases hyx : y < x
        · rw [if_pos hyx] at h2
          cases h2
        · rw [if_pos (by omega : p < y)]
    · rw [if_neg hpx] at h1
      by_cases hxp : x < p
      · rw [if_pos hxp] at h1
        cases h1
      · rw [if_neg hxp] at h1
        by_cases hxy : x < y
        · rw [if_pos (by omega : p < y)]
        · rw [if_neg hxy] at h2
          by_cases hyx : y < x
          · rw [if_pos hyx] at h2
            cases h2
          · rw [if_neg hyx] at h2
            rw [if_neg (by omega : ¬p < y), if_neg (by omega : ¬y < p)]
            exact ih xs ys h1 h2

theorem keyLt_trans {a b c : String} (h1 : keyLt a b = true) (h2 : keyLt b c = true) :
    keyLt a c = true :=
  bytesLt_trans _ _ _ h1 h2

theorem keyLt_ne {a b : String} (h : keyLt a b = true) : a ≠ b := by
  intro he
  subst he
  unfold keyLt at h
  rw [bytesLt_irrefl] at h
  cases h

theorem insertKey_fresh : ∀ (acc : List (String × Json)) k v,
    (∀ kv ∈ acc, kv.1 ≠ k) → insertKey acc k v = acc ++ [(k, v)] := by
  intro acc k v h
  induction acc with
  | nil => rfl
  | cons kv acc ih =>
    rcases kv with ⟨k1, v1⟩
    simp only [insertKey]
    rw [if_neg (h (k1, v1) (List.mem_cons_self _ _))]
    rw [ih (fun kv hkv => h kv (List.mem_cons_of_mem _ hkv))]
    rfl

theorem wfFields_cons : ∀ kv fs, wfFields (kv :: fs) = true →
    wellFormed kv.2 = true ∧ wfFields fs = true ∧
      (∀ kv2 ∈ fs, keyLt kv.1 kv2.1 = true) := by
  intro kv fs
  induction fs generalizing kv with
  | nil =>
    intro h
    refine ⟨by simpa [wfFields] using h, rfl, ?_⟩
    intro kv2 h2
    cases h2
  | cons kv2 fs ih =>
    intro h
    simp only [wfFields, Bool.and_eq_true] at h
    obtain ⟨⟨hlt, hwf⟩, hrest⟩ := h
    have ih2 := ih kv2 hrest
    refine ⟨hwf, hrest, ?_⟩
    intro kv3 h3
    rcases List.mem_cons.mp h3 with h3 | h3
    · subst h3
      exact hlt
    · exact keyLt_trans hlt (ih2.2.2 kv3 h3)

theorem scanDigits_mem : ∀ cs c, c ∈ (scanDigits cs).1 → isDigit c = true := by
  intro cs
  induction cs with
  | nil =>
    intro c hc
    cases hc
  | cons d rest ih =>
    intro c hc
    by_cases hd : isDigit d = true
    · rw [scanDigits_cons_digit _ hd] at hc
      rcases List.mem_cons.mp hc with h | h
      · subst h
        exact hd
      · exact ih c h
    · rw [scanDigits_cons_nondigit _ (by simpa using hd)] at hc
      cases hc

theorem parseNumInt_mem : ∀ cs ip t, parseNumInt cs = some (ip, t) →
    ∀ c ∈ ip, isDigit c = true := by
  intro cs ip t h c hc
  rw [parseNumInt.eq_def] at h
  split at h
  · cases h
  · rename_i c1 rest
    by_cases h0 : c1 = '0'
    · rw [if_pos h0] at h
      rw [Option.some.injEq, Prod.mk.injEq] at h
      rw [← h.1] at hc
      rcases List.mem_cons.mp hc with h2 | h2
      · subst h2
        decide
      · cases h2
    · rw [if_neg h0] at h
      by_cases hd : isDigit c1 = true
      · rw [if_pos hd] at h
        rw [Option.some.injEq, Prod.mk.injEq] at h
        rw [← h.1] at hc
        rcases List.mem_cons.mp hc with h2 | h2
        · subst h2
          exact hd
        · exact scanDigits_mem rest c h2
      · rw [if_neg hd] at h
        cases h

theorem parseFrac_mem : ∀ cs f t, parseFrac cs = some (f, t) →
    ∀ c ∈ f, c = '.' ∨ isDigit c = true := by
  intro cs f t h c hc
  rw [parseFrac.eq_def] at h
  split at h
  · rename_i r1
    split_ifs at h with hemp
    rw [Option.some.injEq, Prod.mk.injEq] at h
    rw [← h.1] at hc
    rcases List.mem_cons.mp hc with h2 | h2
    · exact Or.inl h2
    · exact Or.inr (scanDigits_mem r1 c h2)
  · rw [Option.some.injEq, Prod.mk.injEq] at h
    rw [← h.1] at hc
    cases hc

theorem parseExp_mem : ∀ cs e t, parseExp cs = some (e, t) →
    ∀ c ∈ e, c = 'e' ∨ c = 'E' ∨ c = '+' ∨ c = '-' ∨ isDigit c = true := by
  intro cs e t h c hc
  rw [parseExp.eq_def] at h
  split at h
  · cases h
    cases hc
  · rename_i c1 rest
    by_cases hce : c1 = 'e' ∨ c1 = 'E'
    · rw [if_pos hce] at h
      rcases rest with _ | ⟨s, r1⟩
      · cases h
      · simp only [] at h
        by_cases hsgn : s = '+' ∨ s = '-'
        · rw [if_pos hsgn] at h
          split_ifs at h with hemp
          rw [Option.some.injEq, Prod.mk.injEq] at h
          rw [← h.1] at hc
          rcases List.mem_cons.mp hc with h2 | h2
          · subst h2
            rcases hce with h3 | h3
            · exact Or.inl h3
            · exact Or.inr (Or.inl h3)
          rcases List.mem_cons.mp h2 with h3 | h3
          · subst h3
            rcases hsgn with h4 | h4
            · exact Or.inr (Or.inr (Or.inl h4))
            · exact Or.inr (Or.inr (Or.inr (Or.inl h4)))
          · exact Or.inr (Or.inr (Or.inr (Or.inr (scanDigits_mem r1 c h3))))
        · rw [if_neg hsgn] at h
          split_ifs at h with hemp
          rw [Option.some.injEq, Prod.mk.injEq] at h
          rw [← h.1] at hc
          rcases List.mem_cons.mp hc with h2 | h2
          · subst h2
            rcases hce with h3 | h3
            · exact Or.inl h3
            · exact Or.inr (Or.inl h3)
          · exact Or.inr (Or.inr (Or.inr (Or.inr (scanDigits_mem (s :: r1) c h2))))
    · rw [if_neg hce] at h
      cases h
      cases hc

theorem parseNumber_nospace : ∀ cs lit t, parseNumber cs = some (lit, t) →
    ∀ c ∈ lit, goIsSpace c = false ∧ jsonWS c = false := by
  have hchar : ∀ c : Char, (c = '-' ∨ c = '.' ∨ c = 'e' ∨ c = 'E' ∨ c = '+' ∨
      isDigit c = true) → goIsSpace c = false ∧ jsonWS c = false := by
    intro c hc
    rcases hc with h | h | h | h | h | h
    · subst h
      exact ⟨by decide, by decide⟩
    · subst h
      exact ⟨by decide, by decide⟩
    · subst h
      exact ⟨by decide, by decide⟩
    · subst h
      exact ⟨by decide, by decide⟩
    · subst h
      exact ⟨by decide, by decide⟩
    · exact ⟨goIsSpace_of_digit h, jsonWS_of_digit h⟩
  have hafter : ∀ ip cs lit t, parseNumAfter ip cs = some (lit, t) →
      (∀ c ∈ ip, isDigit c = true) →
      ∀ c ∈ lit, goIsSpace c = false ∧ jsonWS c = false := by
    intro ip cs lit t h hip c hc
    unfold parseNumAfter at h
    rcases hf : parseFrac cs with _ | ⟨f, r1⟩ <;> rw [hf] at h
    · cases h
    simp only [] at h
    rcases he : parseExp r1 with _ | ⟨e, r2⟩ <;> rw [he] at h
    · cases h
    simp only [] at h
    rw [Option.some.injEq, Prod.mk.injEq] at h
    rw [← h.1] at hc
    rcases List.mem_append.mp hc with h2 | h2
    · rcases List.mem_append.mp h2 with h3 | h3
      · exact hchar c (Or.inr (Or.inr (Or.inr (Or.inr (Or.inr (hip c h3))))))
      · rcases parseFrac_mem cs f r1 hf c h3 with h4 | h4
        · exact hchar c (Or.inr (Or.inl h4))
        · exact hchar c (Or.inr (Or.inr (Or.inr (Or.inr (Or.inr h4)))))
    · rcases parseExp_mem r1 e r2 he c h2 with h4 | h4 | h4 | h4 | h4
      · exact hchar c (Or.inr (Or.inr (Or.inl h4)))
      · exact hchar c (Or.inr (Or.inr (Or.inr (Or.inl h4))))
      · exact hchar c (Or.inr (Or.inr (Or.inr (Or.inr (Or.inl h4)))))
      · exact hchar c (Or.inl h4)
      · exact hchar c (Or.inr (Or.inr (Or.inr (Or.inr (Or.inr h4)))))
  intro cs lit t h c hc
  rw [parseNumber.eq_def] at h
  split at h
  · rename_i rest
    rcases hi : parseNumInt rest with _ | ⟨ip, r1⟩ <;> rw [hi] at h
    · cases h
    simp only [] at h
    rcases ha : parseNumAfter ip r1 with _ | ⟨lit1, r2⟩ <;> rw [ha] at h
    · cases h
    simp only [] at h
    rw [Option.some.injEq, Prod.mk.injEq] at h
    rw [← h.1] at hc
    rcases List.mem_cons.mp hc with h2 | h2
    · subst h2
      exact ⟨by decide, by decide⟩
    · exact hafter ip r1 lit1 r2 ha (parseNumInt_mem rest ip r1 hi) c h2
  · rcases hi : parseNumInt cs with _ | ⟨ip, r1⟩ <;> rw [hi] at h
    · cases h
    simp only [] at h
    exact hafter ip r1 lit t h (parseNumInt_mem cs ip r1 hi) c hc

theorem wellFormed_num {l : String} (h : wellFormed (Json.num l) = true) :
    parseNumber l.data = some (l.data, []) ∧ numOverflows l.data = false := by
  simp only [wellFormed] at h
  rcases hp : parseNumber l.data with _ | ⟨lit, rest⟩ <;> rw [hp] at h
  · cases h
  simp only [] at h
  rw [Bool.and_eq_true, Bool.and_eq_true] at h
  obtain ⟨⟨h1, h2⟩, h3⟩ := h
  have h1' : lit = l.data := by simpa using h1
  have h2' : rest = [] := by simpa using h2
  subst h1'
  subst h2'
  refine ⟨rfl, by simpa using h3⟩

theorem mem_of_head' {l : List Char} {c : Char} (h : l.head? = some c) : c ∈ l := by
  rcases l with _ | ⟨a, t⟩
  · cases h
  · rw [List.head?_cons, Option.some.injEq] at h
    subst h
    exact List.mem_cons_self _ _

theorem mem_of_getLast' : ∀ (l : List Char) c, l.getLast? = some c → c ∈ l := by
  intro l
  induction l with
  | nil =>
    intro c h
    cases h
  | cons a t ih =>
    intro c h
    rcases t with _ | ⟨b, t'⟩
    · rw [List.getLast?_singleton, Option.some.injEq] at h
      subst h
      exact List.mem_cons_self _ _
    · rw [List.getLast?_cons_cons] at h
      exact List.mem_cons_of_mem _ (ih c h)

theorem marshal_pos : ∀ x, wellFormed x = true → 1 ≤ (marshal x).length := by
  intro x hwf
  match x with
  | .obj fs => simp [marshal]
  | .arr es => simp [marshal]
  | .str s => simp [marshal, marshalString]
  | .num l =>
    obtain ⟨hp, _⟩ := wellFormed_num hwf
    have hne := (parseNumber_split _ _ _ hp).2
    show 1 ≤ l.data.length
    rcases hd : l.data with _ | ⟨c, t⟩
    · rw [hd] at hne
      exact absurd rfl hne
    · simp
  | .bool b => cases b <;> simp [marshal]
  | .null => simp [marshal]

theorem trimSpace_marshal (x : Json) (hwf : wellFormed x = true) :
    trimSpace (marshal x) = marshal x := by
  apply trimSpace_eq_self
  · intro c hc
    match x with
    | .obj fs =>
      rw [show marshal (.obj fs) = '{' :: (marshalFields fs ++ ['}']) from rfl] at hc
      rw [List.head?_cons, Option.some.injEq] at hc
      subst hc
      decide
    | .arr es =>
      rw [show marshal (.arr es) = '[' :: (marshalElems es ++ [']']) from rfl] at hc
      rw [List.head?_cons, Option.some.injEq] at hc
      subst hc
      decide
    | .str s =>
      rw [show marshal (.str s) = '"' :: (s.data.flatMap escapeChar ++ ['"']) from rfl] at hc
      rw [List.head?_cons, Option.some.injEq] at hc
      subst hc
      decide
    | .num l =>
      obtain ⟨hp, _⟩ := wellFormed_num hwf
      exact (parseNumber_nospace _ _ _ hp c (mem_of_head' hc)).1
    | .bool b =>
      cases b
      · rw [show marshal (Json.bool false) = ['f', 'a', 'l', 's', 'e'] from rfl,
          List.head?_cons, Option.some.injEq] at hc
        subst hc
        decide
      · rw [show marshal (Json.bool true) = ['t', 'r', 'u', 'e'] from rfl,
          List.head?_cons, Option.some.injEq] at hc
        subst hc
        decide
    | .null =>
      rw [show marshal Json.null = ['n', 'u', 'l', 'l'] from rfl,
        List.head?_cons, Option.some.injEq] at hc
      subst hc
      decide
  · intro c hc
    match x with
    | .obj fs =>
      rw [show marshal (.obj fs) = ('{' :: marshalFields fs) ++ ['}'] from rfl,
        List.getLast?_concat, Option.some.injEq] at hc
      subst hc
      decide
    | .arr es =>
      rw [show marshal (.arr es) = ('[' :: marshalElems es) ++ [']'] from rfl,
        List.getLast?_concat, Option.some.injEq] at hc
      subst hc
      decide
    | .str s =>
      rw [show marshal (.str s) = ('"' :: s.data.flatMap escapeChar) ++ ['"'] from rfl,
        List.getLast?_concat, Option.some.injEq] at hc
      subst hc
      decide
    | .num l =>
      obtain ⟨hp, _⟩ := wellFormed_num hwf
      exact (parseNumber_nospace _ _ _ hp c (mem_of_getLast' _ c hc)).1
    | .bool b =>
      cases b
      · rw [show marshal (Json.bool false) = ['f', 'a', 'l', 's', 'e'] from rfl] at hc
        simp only [List.getLast?_cons_cons, List.getLast?_singleton,
          Option.some.injEq] at hc
        subst hc
        decide
      · rw [show marshal (Json.bool true) = ['t', 'r', 'u', 'e'] from rfl] at hc
        simp only [List.getLast?_cons_cons, List.getLast?_singleton,
          Option.some.injEq] at hc
        subst hc
        decide
    | .null =>
      rw [show marshal Json.null = ['n', 'u', 'l', 'l'] from rfl] at hc
      simp only [List.getLast?_cons_cons, List.getLast?_singleton,
        Option.some.injEq] at hc
      subst hc
      decide

theorem wfList_cons {v : Json} {es : List Json} (h : wfList (v :: es) = true) :
    wellFormed v = true ∧ wfList es = true := by
  simp only [wfList, Bool.and_eq_true] at h
  exact h

theorem marshalString_len (s : String) : 2 ≤ (marshalString s).length := by
  simp only [marshalString, List.length_cons, List.length_append]
  omega

theorem pfuelFields_le : ∀ fs, (∀ kv ∈ fs, wellFormed kv.2 = true →
      pfuel kv.2 ≤ 2 * (marshal kv.2).length) → wfFields fs = true →
    pfuelFields fs ≤ 2 * (marshalFields fs).length + 2 := by
  intro fs
  induction fs with
  | nil =>
    intro _ _
    simp [pfuelFields]
  | cons kv fs ih =>
    intro hmem hwf
    obtain ⟨hwfv, hwfr, _⟩ := wfFields_cons kv fs hwf
    have hv := hmem kv (List.mem_cons_self _ _) hwfv
    have hms := marshalString_len kv.1
    rcases fs with _ | ⟨kv2, fs'⟩
    · simp only [pfuelFields, marshalFields, List.length_append, List.length_cons]
      omega
    · have ihr := ih (fun kv3 h3 => hmem kv3 (List.mem_cons_of_mem _ h3)) hwfr
      simp only [pfuelFields, marshalFields, List.length_append, List.length_cons] at ihr ⊢
      omega

theorem pfuelList_le : ∀ es, (∀ v ∈ es, wellFormed v = true →
      pfuel v ≤ 2 * (marshal v).length) → wfList es = true →
    pfuelList es ≤ 2 * (marshalElems es).length + 2 := by
  intro es
  induction es with
  | nil =>
    intro _ _
    simp [pfuelList]
  | cons v es ih =>
    intro hmem hwf
    obtain ⟨hwfv, hwfr⟩ := wfList_cons hwf
    have hv := hmem v (List.mem_cons_self _ _) hwfv
    rcases es with _ | ⟨v2, es'⟩
    · simp only [pfuelList, marshalElems, List.length_append, List.length_cons]
      omega
    · have ihr := ih (fun v3 h3 => hmem v3 (List.mem_cons_of_mem _ h3)) hwfr
      simp only [pfuelList, marshalElems, List.length_append, List.length_cons] at ihr ⊢
      omega

theorem pfuel_le : ∀ n x, jsize x ≤ n → wellFormed x = true →
    pfuel x ≤ 2 * (marshal x).length := by
  intro n
  induction n using Nat.strong_induction_on with
  | _ n ih =>
    intro x hn hwf
    match x with
    | .null => decide
    | .bool b => cases b <;> decide
    | .str s =>
      have h1 : pfuel (Json.str s) = 1 := rfl
      have h2 := marshal_pos (Json.str s) hwf
      omega
    | .num l =>
      have h1 : pfuel (Json.num l) = 1 := rfl
      have h2 := marshal_pos (Json.num l) hwf
      omega
    | .obj fs =>
      have hjf : jsizeFields fs + 1 ≤ n := by
        have : jsize (Json.obj fs) = 1 + jsizeFields fs := by simp [jsize]
        omega
      have hb := pfuelFields_le fs ?mem ?wff
      case mem =>
        intro kv hkv hwfv
        exact ih (jsizeFields fs) (by omega) kv.2 (jsize_mem_fields fs kv hkv) hwfv
      case wff => simpa [wellFormed] using hwf
      show 2 + pfuelFields fs ≤ 2 * (marshal (Json.obj fs)).length
      simp only [marshal, List.length_cons, List.length_append]
      omega
    | .arr es =>
      have hje : jsizeList es + 1 ≤ n := by
        have : jsize (Json.arr es) = 1 + jsizeList es := by simp [jsize]
        omega
      have hb := pfuelList_le es ?mem2 ?wfl
      case mem2 =>
        intro v hv hwfv
        exact ih (jsizeList es) (by omega) v (jsize_mem_list es v hv) hwfv
      case wfl => simpa [wellFormed] using hwf
      show 2 + pfuelList es ≤ 2 * (marshal (Json.arr es)).length
      simp only [marshal, List.length_cons, List.length_append]
      omega

theorem jdepthFields_head (kv : String × Json) (fs : List (String × Json)) :
    jdepth kv.2 ≤ jdepthFields (kv :: fs) := by
  simp only [jdepthFields]
  exact Nat.le_max_left _ _

theorem jdepthFields_tail (kv : String × Json) (fs : List (String × Json)) :
    jdepthFields fs ≤ jdepthFields (kv :: fs) := by
  simp only [jdepthFields]
  exact Nat.le_max_right _ _

theorem jdepthList_head (v : Json) (es : List Json) :
    jdepth v ≤ jdepthList (v :: es) := by
  simp only [jdepthList]
  exact Nat.le_max_left _ _

theorem jdepthList_tail (v : Json) (es : List Json) :
    jdepthList es ≤ jdepthList (v :: es) := by
  simp only [jdepthList]
  exact Nat.le_max_right _ _

theorem pfuel_pos (x : Json) : 1 ≤ pfuel x := by
  match x with
  | .obj fs =>
    simp only [pfuel]
    omega
  | .arr es =>
    simp only [pfuel]
    omega
  | .str s => simp [pfuel]
  | .num l => simp [pfuel]
  | .bool b => simp [pfuel]
  | .null => simp [pfuel]

theorem pfuelFields_pos (kv : String × Json) (fs : List (String × Json)) :
    2 ≤ pfuelFields (kv :: fs) := by
  simp only [pfuelFields]
  omega

theorem pfuelList_pos (v : Json) (es : List Json) :
    2 ≤ pfuelList (v :: es) := by
  simp only [pfuelList]
  omega

theorem marshalFields_cons_head (kv : String × Json) (fs : List (String × Json)) :
    ∃ t, marshalFields (kv :: fs) = '"' :: t := by
  rcases fs with _ | ⟨kv2, fs'⟩
  · exact ⟨_, rfl⟩
  · exact ⟨_, rfl⟩

theorem marshal_head_info : ∀ v, wellFormed v = true →
    ∃ c0 t0, marshal v = c0 :: t0 ∧ jsonWS c0 = false ∧ c0 ≠ ']' ∧ c0 ≠ '}' := by
  intro v hwf
  match v with
  | .obj fs => exact ⟨'{', _, rfl, by decide, by decide, by decide⟩
  | .arr es => exact ⟨'[', _, rfl, by decide, by decide, by decide⟩
  | .str s => exact ⟨'"', _, rfl, by decide, by decide, by decide⟩
  | .bool true => exact ⟨'t', _, rfl, by decide, by decide, by decide⟩
  | .bool false => exact ⟨'f', _, rfl, by decide, by decide, by decide⟩
  | .null => exact ⟨'n', _, rfl, by decide, by decide, by decide⟩
  | .num l =>
    obtain ⟨hp, _⟩ := wellFormed_num hwf
    rcases hd : l.data with _ | ⟨c0, t0⟩
    · rw [hd, show parseNumber ([] : List Char) = none from rfl] at hp
      cases hp
    · have hhead := parseNumber_head c0 t0 (l.data, []) (by rw [← hd]; exact hp)
      refine ⟨c0, t0, hd, ?_, ?_, ?_⟩
      · rcases hhead with h | h
        · subst h
          decide
        · exact jsonWS_of_digit h
      · rcases hhead with h | h
        · subst h
          decide
        · obtain ⟨h1, h2⟩ := isDigit_toNat h
          intro he
          subst he
          revert h1 h2
          decide
      · rcases hhead with h | h
        · subst h
          decide
        · obtain ⟨h1, h2⟩ := isDigit_toNat h
          intro he
          subst he
          revert h1 h2
          decide

theorem marshalElems_cons_head {v : Json} {c0 : Char} {t0 : List Char}
    (es : List Json) (h : marshal v = c0 :: t0) :
    ∃ t1, marshalElems (v :: es) = c0 :: t1 := by
  rcases es with _ | ⟨v2, es'⟩
  · exact ⟨t0, h⟩
  · show ∃ t1, marshal v ++ ',' :: marshalElems (v2 :: es') = c0 :: t1
    rw [h, List.cons_append]
    exact ⟨_, rfl⟩

theorem parse_marshal_all : ∀ fuel,
    (∀ x depth r, wellFormed x = true → depth + jdepth x ≤ 10000 → numStop r →
      pfuel x ≤ fuel → parseF fuel (.val depth (marshal x ++ r)) = some (x, r)) ∧
    (∀ fs acc depth r, fs ≠ [] → wfFields fs = true →
      (∀ kv ∈ acc, ∀ kv2 ∈ fs, keyLt kv.1 kv2.1 = true) →
      depth + jdepthFields fs ≤ 10000 → numStop r → pfuelFields fs ≤ fuel →
      parseF fuel (.members depth (marshalFields fs ++ '}' :: r) acc) =
        some (.obj (acc ++ fs), r)) ∧
    (∀ es acc depth r, es ≠ [] → wfList es = true →
      depth + jdepthList es ≤ 10000 → numStop r → pfuelList es ≤ fuel →
      parseF fuel (.elems depth (marshalElems es ++ ']' :: r) acc) =
        some (.arr (acc ++ es), r)) := by
  intro fuel
  induction fuel using Nat.strong_induction_on with
  | _ fuel ih =>
    refine ⟨?_, ?_, ?_⟩
    · intro x depth r hwf hdepth hstop hpf
      rcases fuel with _ | g
      · have := pfuel_pos x
        omega
      match x with
      | .null =>
        simp only [parseF]
        rw [show marshal Json.null ++ r = 'n' :: 'u' :: 'l' :: 'l' :: r from rfl]
        rw [skipWS_cons_nonws _ (by decide)]
        simp only [Char.reduceEq, reduceIte]
      | .bool true =>
        simp only [parseF]
        rw [show marshal (Json.bool true) ++ r = 't' :: 'r' :: 'u' :: 'e' :: r from rfl]
        rw [skipWS_cons_nonws _ (by decide)]
        simp only [Char.reduceEq, reduceIte]
      | .bool false =>
        simp only [parseF]
        rw [show marshal (Json.bool false) ++ r = 'f' :: 'a' :: 'l' :: 's' :: 'e' :: r from rfl]
        rw [skipWS_cons_nonws _ (by decide)]
        simp only [Char.reduceEq, reduceIte]
      | .str s =>
        simp only [parseF]
        have hsh : marshal (Json.str s) ++ r =
            '"' :: (s.data.flatMap escapeChar ++ ('"' :: r)) := by
          show ('"' :: (s.data.flatMap escapeChar ++ ['"'])) ++ r = _
          rw [List.cons_append, List.append_assoc]
          rfl
        rw [hsh, skipWS_cons_nonws _ (by decide)]
        simp only [Char.reduceEq, reduceIte]
        rw [parseStringBody_escape]
      | .num l =>
        obtain ⟨hp, hov⟩ := wellFormed_num hwf
        obtain ⟨c0, t, hlt⟩ : ∃ c0 t, l.data = c0 :: t := by
          rcases hd : l.data with _ | ⟨c0, t⟩
          · rw [hd, show parseNumber ([] : List Char) = none from rfl] at hp
            cases hp
          · exact ⟨c0, t, rfl⟩
        have hhead := parseNumber_head c0 t (l.data, []) (by rw [← hlt]; exact hp)
        have hns := parseNumber_nospace l.data l.data [] hp c0
          (by rw [hlt]; exact List.mem_cons_self _ _)
        simp only [parseF]
        rw [show marshal (Json.num l) ++ r = l.data ++ r from rfl]
        rw [hlt, List.cons_append, skipWS_cons_nonws _ hns.2]
        simp only []
        have hne : c0 ≠ '{' ∧ c0 ≠ '[' ∧ c0 ≠ '"' ∧ c0 ≠ 't' ∧ c0 ≠ 'f' ∧ c0 ≠ 'n' := by
          rcases hhead with h | h
          · subst h
            exact ⟨by decide, by decide, by decide, by decide, by decide, by decide⟩
          · obtain ⟨hge, hle⟩ := isDigit_toNat h
            refine ⟨?_, ?_, ?_, ?_, ?_, ?_⟩ <;> intro he <;> subst he <;>
              revert hge hle <;> decide
        rw [if_neg hne.1, if_neg hne.2.1, if_neg hne.2.2.1, if_neg hne.2.2.2.1,
          if_neg hne.2.2.2.2.1, if_neg hne.2.2.2.2.2, if_pos hhead]
        have hpn : parseNumber (c0 :: (t ++ r)) = some (l.data, r) := by
          rw [← List.cons_append, ← hlt]
          have h2 := parseNumber_ext l.data l.data [] r hp (fun _ => hstop)
          simpa using h2
        rw [hpn]
        simp only []
        simp only [hov, Bool.false_eq_true, if_false]
      | .obj fs =>
        have hjd : jdepth (Json.obj fs) = 1 + jdepthFields fs := by simp [jdepth]
        have hdep : ¬maxNestingDepth < depth + 1 := by
          simp only [maxNestingDepth]
          omega
        simp only [parseF]
        have hsh : marshal (Json.obj fs) ++ r = '{' :: (marshalFields fs ++ ('}' :: r)) := by
          show ('{' :: marshalFields fs ++ ['}']) ++ r = _
          rw [List.cons_append, List.cons_append, List.append_assoc]
          rfl
        rw [hsh, skipWS_cons_nonws _ (by decide)]
        simp only [Char.reduceEq, reduceIte]
        rw [if_neg hdep]
        rcases fs with _ | ⟨kv, fs'⟩
        · rw [show marshalFields [] ++ '}' :: r = '}' :: r from rfl]
          rw [skipWS_cons_nonws _ (by decide)]
          simp only []
        · obtain ⟨mt, hmt⟩ := marshalFields_cons_head kv fs'
          rw [hmt, List.cons_append, skipWS_cons_nonws _ (by decide)]
          split
          · rename_i r2 heq
            injection heq with h1 _
            exact absurd h1 (by decide)
          · rw [← List.cons_append, ← hmt]
            rw [(ih g (by omega)).2.1 (kv :: fs') [] (depth + 1) r (by simp)
              (by simpa [wellFormed] using hwf)
              (by intro kv1 h1 kv2 h2; cases h1)
              (by omega) hstop
              (by have h3 : pfuel (Json.obj (kv :: fs')) = 2 + pfuelFields (kv :: fs') := rfl
                  omega)]
            rfl
      | .arr es =>
        have hjd : jdepth (Json.arr es) = 1 + jdepthList es := by simp [jdepth]
        have hdep : ¬maxNestingDepth < depth + 1 := by
          simp only [maxNestingDepth]
          omega
        simp only [parseF]
        have hsh : marshal (Json.arr es) ++ r = '[' :: (marshalElems es ++ (']' :: r)) := by
          show ('[' :: marshalElems es ++ [']']) ++ r = _
          rw [List.cons_append, List.cons_append, List.append_assoc]
          rfl
        rw [hsh, skipWS_cons_nonws _ (by decide)]
        simp only [Char.reduceEq, reduceIte]
        rw [if_neg hdep]
        rcases es with _ | ⟨v, es'⟩
        · rw [show marshalElems [] ++ ']' :: r = ']' :: r from rfl]
          rw [skipWS_cons_nonws _ (by decide)]
          simp only []
        · have hwfv := (wfList_cons (by simpa [wellFormed] using hwf)).1
          obtain ⟨c0, t0, hm0, hws, hbr, _⟩ := marshal_head_info v hwfv
          obtain ⟨t1, ht1⟩ := marshalElems_cons_head es' hm0
          rw [ht1, List.cons_append, skipWS_cons_nonws _ hws]
          split
          · rename_i r2 heq
            injection heq with h1 _
            exact absurd h1 hbr
          · rw [← List.cons_append, ← ht1]
            rw [(ih g (by omega)).2.2 (v :: es') [] (depth + 1) r (by simp)
              (by simpa [wellFormed] using hwf)
              (by omega) hstop
              (by have h3 : pfuel (Json.arr (v :: es')) = 2 + pfuelList (v :: es') := rfl
                  omega)]
            rfl
    · intro fs acc depth r hne hwf hacc hdepth hstop hpf
      rcases fs with _ | ⟨kv, fs'⟩
      · exact absurd rfl hne
      rcases fuel with _ | g
      · have := pfuelFields_pos kv fs'
        omega
      obtain ⟨hwfv, hwfr, hlt⟩ := wfFields_cons kv fs' hwf
      have hfresh : ∀ kv1 ∈ acc, kv1.1 ≠ kv.1 := by
        intro kv1 h1
        exact keyLt_ne (hacc kv1 h1 kv (List.mem_cons_self _ _))
      have hdv : depth + jdepth kv.2 ≤ 10000 := by
        have := jdepthFields_head kv fs'
        omega
      rcases fs' with _ | ⟨kv2, fs''⟩
      · have hsh : marshalFields [kv] ++ '}' :: r =
            '"' :: (kv.1.data.flatMap escapeChar ++
              ('"' :: (':' :: (marshal kv.2 ++ '}' :: r)))) := by
          show (marshalString kv.1 ++ ':' :: marshal kv.2) ++ '}' :: r = _
          rw [show marshalString kv.1 =
            '"' :: (kv.1.data.flatMap escapeChar ++ ['"']) from rfl]
          simp [List.append_assoc]
        simp only [parseF]
        rw [hsh, skipWS_cons_nonws _ (by decide)]
        simp only []
        rw [parseStringBody_escape]
        simp only []
        rw [skipWS_cons_nonws _ (by decide)]
        simp only []
        rw [(ih g (by omega)).1 kv.2 depth ('}' :: r) hwfv hdv (Or.inr (Or.inl rfl))
          (by have h3 : pfuelFields [kv] = 2 + pfuel kv.2 + pfuelFields [] := rfl
              have h4 : pfuelFields ([] : List (String × Json)) = 0 := rfl
              omega)]
        simp only []
        rw [skipWS_cons_nonws _ (by decide)]
        simp only []
        show some (Json.obj (insertKey acc kv.1 kv.2), r) = _
        rw [insertKey_fresh acc kv.1 kv.2 hfresh]
      · have hsh : marshalFields (kv :: kv2 :: fs'') ++ '}' :: r =
            '"' :: (kv.1.data.flatMap escapeChar ++
              ('"' :: (':' :: (marshal kv.2 ++
                (',' :: (marshalFields (kv2 :: fs'') ++ '}' :: r)))))) := by
          show (marshalString kv.1 ++ ':' :: marshal kv.2 ++
            ',' :: marshalFields (kv2 :: fs'')) ++ '}' :: r = _
          rw [show marshalString kv.1 =
            '"' :: (kv.1.data.flatMap escapeChar ++ ['"']) from rfl]
          simp [List.append_assoc]
        simp only [parseF]
        rw [hsh, skipWS_cons_nonws _ (by decide)]
        simp only []
        rw [parseStringBody_escape]
        simp only []
        rw [skipWS_cons_nonws _ (by decide)]
        simp only []
        rw [(ih g (by omega)).1 kv.2 depth
          (',' :: (marshalFields (kv2 :: fs'') ++ '}' :: r)) hwfv hdv (Or.inl rfl)
          (by have h3 : pfuelFields (kv :: kv2 :: fs'') =
                2 + pfuel kv.2 + pfuelFields (kv2 :: fs'') := rfl
              have h4 := pfuelFields_pos kv2 fs''
              omega)]
        simp only []
        rw [skipWS_cons_nonws _ (by decide)]
        simp only []
        show parseF g (.members depth (marshalFields (kv2 :: fs'') ++ '}' :: r)
          (insertKey acc kv.1 kv.2)) = _
        rw [insertKey_fresh acc kv.1 kv.2 hfresh]
        rw [(ih g (by omega)).2.1 (kv2 :: fs'') (acc ++ [kv]) depth r (by simp) hwfr
          (by intro kv1 h1 kv3 h3
              rcases List.mem_append.mp h1 with h1 | h1
              · exact hacc kv1 h1 kv3 (List.mem_cons_of_mem _ h3)
              · rcases List.mem_cons.mp h1 with h1 | h1
                · subst h1
                  exact hlt kv3 h3
                · cases h1)
          (by have := jdepthFields_tail kv (kv2 :: fs'')
              omega)
          hstop
          (by have h3 : pfuelFields (kv :: kv2 :: fs'') =
                2 + pfuel kv.2 + pfuelFields (kv2 :: fs'') := rfl
              have h4 := pfuel_pos kv.2
              omega)]
        rw [List.append_assoc]
        rfl
    · intro es acc depth r hne hwf hdepth hstop hpf
      rcases es with _ | ⟨v, es'⟩
      · exact absurd rfl hne
      rcases fuel with _ | g
      · have := pfuelList_pos v es'
        omega
      obtain ⟨hwfv, hwfr⟩ := wfList_cons hwf
      have hdv : depth + jdepth v ≤ 10000 := by
        have := jdepthList_head v es'
        omega
      simp only [parseF]
      rcases es' with _ | ⟨v2, es''⟩
      · rw [show marshalElems [v] ++ ']' :: r = marshal v ++ ']' :: r from rfl]
        rw [(ih g (by omega)).1 v depth (']' :: r) hwfv hdv (Or.inr (Or.inr rfl))
          (by have h3 : pfuelList [v] = 2 + pfuel v + pfuelList [] := rfl
              have h4 : pfuelList ([] : List Json) = 0 := rfl
              omega)]
        simp only []
        rw [skipWS_cons_nonws _ (by decide)]
        simp only []
      · have hsh : marshalElems (v :: v2 :: es'') ++ ']' :: r =
            marshal v ++ (',' :: (marshalElems (v2 :: es'') ++ ']' :: r)) := by
          show (marshal v ++ ',' :: marshalElems (v2 :: es'')) ++ ']' :: r = _
          simp [List.append_assoc]
        rw [hsh]
        rw [(ih g (by omega)).1 v depth
          (',' :: (marshalElems (v2 :: es'') ++ ']' :: r)) hwfv hdv (Or.inl rfl)
          (by have h3 : pfuelList (v :: v2 :: es'') =
                2 + pfuel v + pfuelList (v2 :: es'') := rfl
              have h4 := pfuelList_pos v2 es''
              omega)]
        simp only []
        rw [skipWS_cons_nonws _ (by decide)]
        simp only []
        rw [(ih g (by omega)).2.2 (v2 :: es'') (acc ++ [v]) depth r (by simp) hwfr
          (by have := jdepthList_tail v (v2 :: es'')
              omega)
          hstop
          (by have h3 : pfuelList (v :: v2 :: es'') =
                2 + pfuel v + pfuelList (v2 :: es'') := rfl
              have h4 := pfuel_pos v
              omega)]
        rw [List.append_assoc]
        rfl

theorem goUnmarshal_marshal (x : Json) (hwf : wellFormed x = true)
    (hdep : jdepth x ≤ 10000) : goUnmarshal (marshal x) = some x := by
  unfold goUnmarshal
  have h := (parse_marshal_all (parseFuel (marshal x))).1 x 0 [] hwf (by omega) trivial ?f
  case f =>
    have h1 := pfuel_le (jsize x) x (le_refl _) hwf
    unfold parseFuel
    omega
  rw [List.append_nil] at h
  rw [h]
  rfl

/-- Claim C3 (amended): for every canonically represented value `x`
(object keys sorted as Go's `Marshal` writes them, number literals exact
scans that fit `float64`) whose nesting depth does not exceed Go's scanner
limit of 10000, decoding the Base64 encoding of the serialized form fully
unwraps the layer and equals decoding `x` itself. -/
theorem c3_roundtrip_amended (x : Json) (hwf : wellFormed x = true)
    (hdep : jdepth x ≤ 10000) :
    decodeBase64String (encStr (jsonStringify x)) = decodeBase64Fields x := by
  have hj : goUnmarshal (trimSpace (jsonStringify x).data) = some x := by
    show goUnmarshal (trimSpace (marshal x)) = some x
    rw [trimSpace_marshal x hwf]
    exact goUnmarshal_marshal x hwf hdep
  exact decodeBS_textok (isBase64_encStr _) (goB64Decode_encStr _)
    (utf8Decode_strBytes _) hj

/-- Witness for the amended C3 at `{"a":1}`. -/
theorem c3_roundtrip_amended_witness :
    wellFormed (Json.obj [("a", Json.num "1")]) = true ∧
    jdepth (Json.obj [("a", Json.num "1")]) ≤ 10000 ∧
    decodeBase64String (encStr (jsonStringify (Json.obj [("a", Json.num "1")]))) =
      decodeBase64Fields (Json.obj [("a", Json.num "1")]) :=
  ⟨by rfl, by decide, c3_roundtrip_amended _ (by rfl) (by decide)⟩
